/-
  Verification of the batch ray-sphere intersection engine of pathtrace-rs
  (src/collision.rs), over an exact-arithmetic shallow embedding.

  All f32 arithmetic of the source is embedded as exact rational arithmetic.
  The square-root intrinsic has no exact rational counterpart, so every
  kernel takes an explicit square-root oracle `sq : ℚ → ℚ` as a parameter;
  theorems that need the oracle to behave like a real square root state that
  requirement as a hypothesis on the discriminants actually encountered.
-/
import Mathlib

/- Batteries marks the rational field operations `@[irreducible]`, which
blocks the elaborator's evaluation of `decide` on concrete stores and rays.
The kernel never consults reducibility attributes, so restoring
`semireducible` here only lets concrete instances evaluate; it changes no
definitional equality the kernel would accept. -/
set_option allowUnsafeReducibility true
attribute [local semireducible] Rat.add Rat.mul Rat.sub Rat.div Rat.inv Rat.neg

set_option maxRecDepth 8000

namespace PathTrace

/-- Three f32 components, embedded as exact rationals (vmath::Vec3). -/
structure Vec3 where
  x : ℚ
  y : ℚ
  z : ℚ
deriving DecidableEq

def Vec3.add (a b : Vec3) : Vec3 := ⟨a.x + b.x, a.y + b.y, a.z + b.z⟩

def Vec3.sub (a b : Vec3) : Vec3 := ⟨a.x - b.x, a.y - b.y, a.z - b.z⟩

def Vec3.smul (k : ℚ) (v : Vec3) : Vec3 := ⟨k * v.x, k * v.y, k * v.z⟩

def Vec3.dot (a b : Vec3) : ℚ := a.x * b.x + a.y * b.y + a.z * b.z

/-- collision.rs: `pub struct Ray { origin, direction }`. -/
structure Ray where
  origin : Vec3
  direction : Vec3
deriving DecidableEq

/-- collision.rs: `Ray::point_at_parameter`, `origin + (t * direction)`. -/
def Ray.point_at_parameter (r : Ray) (t : ℚ) : Vec3 :=
  Vec3.add r.origin (Vec3.smul t r.direction)

/-- collision.rs: `pub struct RayHit { point, normal }`. -/
structure RayHit where
  point : Vec3
  normal : Vec3
deriving DecidableEq

/-- collision.rs: `pub struct Sphere { centre, radius }`. -/
structure Sphere where
  centre : Vec3
  radius : ℚ
deriving DecidableEq

/-- The f32::MAX sentinel centre coordinate, as an exact rational:
f32::MAX = (2 - 2^-23) * 2^127. -/
def f32MAX : ℚ := 2 ^ 128 - 2 ^ 104

/-- Modelled from the spec: `math::align_to` is not among the provided
sources; per spec section 3 the padded count is the logical count "rounded up
to the next multiple of the vector lane width (4)". -/
def align_to (n chunk : ℕ) : ℕ := ((n + chunk - 1) / chunk) * chunk

/-- collision.rs: `pub struct SpheresSoA` - parallel attribute arrays,
padded length `len`, logical count `num_spheres`. -/
structure SpheresSoA where
  centre_x : List ℚ
  centre_y : List ℚ
  centre_z : List ℚ
  radius_sq : List ℚ
  radius_inv : List ℚ
  len : ℕ
  num_spheres : ℕ
deriving DecidableEq

/-- collision.rs: `SpheresSoA::new`. The per-sphere push loop becomes a map,
the padding loop a replicate; sentinel rows are centre f32::MAX on every
axis with `radius_sq = 0`, `radius_inv = 0`. No radius validation happens. -/
def SpheresSoA.new (spheres : List Sphere) : SpheresSoA :=
  let chunk_size := 4
  let num_spheres := spheres.length
  let len := align_to num_spheres chunk_size
  let padding := len - num_spheres
  { centre_x := spheres.map (fun s => s.centre.x) ++ List.replicate padding f32MAX
    centre_y := spheres.map (fun s => s.centre.y) ++ List.replicate padding f32MAX
    centre_z := spheres.map (fun s => s.centre.z) ++ List.replicate padding f32MAX
    radius_sq := spheres.map (fun s => s.radius * s.radius) ++ List.replicate padding 0
    radius_inv := spheres.map (fun s => 1 / s.radius) ++ List.replicate padding 0
    len := len
    num_spheres := num_spheres }

/-- collision.rs: `SpheresSoA::centre`; the `assert!(index < self.len)`
panic is modelled as `none`, the unchecked in-bounds reads as `getD`. -/
def SpheresSoA.centre (s : SpheresSoA) (index : ℕ) : Option Vec3 :=
  if index < s.len then
    some ⟨s.centre_x.getD index 0, s.centre_y.getD index 0, s.centre_z.getD index 0⟩
  else none

/-- collision.rs: `SpheresSoA::radius_sq`, a checked `Vec` index whose
out-of-bounds panic is modelled as `none`. -/
def SpheresSoA.radius_sq_at (s : SpheresSoA) (index : ℕ) : Option ℚ :=
  s.radius_sq.get? index

/-- One sphere row of the SoA store: centre components and squared radius,
as consumed by both kernels. -/
structure Row where
  cx : ℚ
  cy : ℚ
  cz : ℚ
  rsq : ℚ
deriving DecidableEq

/-- Default row used for out-of-range `getD` reads. -/
def d0 : Row := ⟨0, 0, 0, 0⟩

/-- The four parallel attribute arrays, zipped into rows exactly as the
iterator chain of `hit_scalar` zips them (truncating to the shortest). -/
def SpheresSoA.rows (s : SpheresSoA) : List Row :=
  (((s.centre_x.zip s.centre_y).zip s.centre_z).zip s.radius_sq).map
    (fun p => ⟨p.1.1.1, p.1.1.2, p.1.2, p.2⟩)

/-- `let co = vec3(centre_x, centre_y, centre_z) - ray.origin`. -/
def coOf (r : Ray) (w : Row) : Vec3 := Vec3.sub ⟨w.cx, w.cy, w.cz⟩ r.origin

/-- `let nb = co.dot(ray.direction)`. -/
def nbOf (r : Ray) (w : Row) : ℚ := Vec3.dot (coOf r w) r.direction

/-- `let c = co.dot(co) - radius_sq`. -/
def cOf (r : Ray) (w : Row) : ℚ := Vec3.dot (coOf r w) (coOf r w) - w.rsq

/-- `let discriminant = nb * nb - c`. -/
def discOf (r : Ray) (w : Row) : ℚ := nbOf r w * nbOf r w - cOf r w

/-- The scalar kernel's root choice: `t = nb - sqrt; if t < t_min { t = nb
+ sqrt }`. -/
def tScal (sq : ℚ → ℚ) (r : Ray) (t_min : ℚ) (w : Row) : ℚ :=
  let s := sq (discOf r w)
  if nbOf r w - s < t_min then nbOf r w + s else nbOf r w - s

/-- The vector kernel's root choice: `t = blendv(t1, t0, t0 > t_min)`,
i.e. the nearer root when it is strictly above `t_min`, else the farther
root.  This differs from `tScal` exactly when the nearer root equals
`t_min`. -/
def tSse (sq : ℚ → ℚ) (r : Ray) (t_min : ℚ) (w : Row) : ℚ :=
  let s := sq (discOf r w)
  if nbOf r w - s > t_min then nbOf r w - s else nbOf r w + s

/-- The running-minimum loop of `hit_scalar`: `index` is the enumerate
counter, the accumulator carries `(hit_t, hit_index)`. -/
def scalarLoop (sq : ℚ → ℚ) (r : Ray) (t_min : ℚ) :
    List Row → ℕ → ℚ × ℕ → ℚ × ℕ
  | [], _, acc => acc
  | w :: rest, index, acc =>
      let acc' :=
        if 0 < discOf r w then
          let t := tScal sq r t_min w
          if t > t_min ∧ t < acc.1 then (t, index) else acc
        else acc
      scalarLoop sq r t_min rest (index + 1) acc'

/-- collision.rs: `SpheresSoA::hit_scalar`. -/
def hit_scalar (sq : ℚ → ℚ) (s : SpheresSoA) (r : Ray) (t_min t_max : ℚ) :
    Option (RayHit × ℕ) :=
  let f := scalarLoop sq r t_min s.rows 0 (t_max, s.len)
  if f.2 < s.len then
    let point := r.point_at_parameter f.1
    let normal := Vec3.smul (s.radius_inv.getD f.2 0)
      (Vec3.sub point
        ⟨s.centre_x.getD f.2 0, s.centre_y.getD f.2 0, s.centre_z.getD f.2 0⟩)
    some (⟨point, normal⟩, f.2)
  else none

/-- The per-lane acceptance mask of `hit_sse4_1`:
`discrPos & (t > tMin4) & (t < hitT)`. -/
def laneMask (sq : ℚ → ℚ) (r : Ray) (t_min : ℚ) (g : Fin 4 → Row)
    (t_lanes : Fin 4 → ℚ) (j : Fin 4) : Prop :=
  0 < discOf r (g j) ∧ t_min < tSse sq r t_min (g j) ∧
    tSse sq r t_min (g j) < t_lanes j

instance (sq : ℚ → ℚ) (r : Ray) (t_min : ℚ) (g : Fin 4 → Row)
    (t_lanes : Fin 4 → ℚ) : DecidablePred (laneMask sq r t_min g t_lanes) :=
  fun _ => by unfold laneMask; infer_instance

/-- One group of four lanes of `hit_sse4_1`.  The per-lane arithmetic
(`dot3_sse2`, `_mm_sqrt_ps`) is the same formula as the scalar path applied
lane-wise; `dot3_sse2` itself is absent from the provided simd.rs, so it is
modelled from the spec as the component-wise 3-dot-product.  The outer
`if _mm_movemask_ps(pos_discr) != 0` group skip is kept; the lane-wise
blends become lane-wise selects on the mask. -/
def sseGroup (sq : ℚ → ℚ) (r : Ray) (t_min : ℚ) (g : Fin 4 → Row)
    (t_lanes : Fin 4 → ℚ) (i_lanes : Fin 4 → ℤ) (base : ℤ) :
    (Fin 4 → ℚ) × (Fin 4 → ℤ) :=
  if 0 < discOf r (g 0) ∨ 0 < discOf r (g 1) ∨ 0 < discOf r (g 2) ∨
      0 < discOf r (g 3) then
    (fun j => if laneMask sq r t_min g t_lanes j then tSse sq r t_min (g j)
      else t_lanes j,
     fun j => if laneMask sq r t_min g t_lanes j then base + (j : ℤ)
      else i_lanes j)
  else (t_lanes, i_lanes)

/-- The `chunks(4)` loop of `hit_sse4_1`; `base` is the running packed index
vector (lane j holds `base + j`), incremented by four per group.  A final
partial chunk (impossible for a store built by `new`, whose padded length is
a multiple of four) loads defaults for the missing lanes. -/
def sseLoop (sq : ℚ → ℚ) (r : Ray) (t_min : ℚ) :
    List Row → (Fin 4 → ℚ) → (Fin 4 → ℤ) → ℤ → (Fin 4 → ℚ) × (Fin 4 → ℤ)
  | w0 :: w1 :: w2 :: w3 :: rest, t_lanes, i_lanes, base =>
      let p := sseGroup sq r t_min ![w0, w1, w2, w3] t_lanes i_lanes base
      sseLoop sq r t_min rest p.1 p.2 (base + 4)
  | [], t_lanes, i_lanes, _ => (t_lanes, i_lanes)
  | rest, t_lanes, i_lanes, base =>
      sseGroup sq r t_min (fun j => rest.getD (j : ℕ) d0) t_lanes i_lanes base

/-- Modelled from the spec: `hmin_sse2` is not among the provided sources;
per spec section 4.3 the horizontal reduction finds "the minimum value
across the 4 final lane best_t values". -/
def hmin_sse2 (t_lanes : Fin 4 → ℚ) : ℚ :=
  min (min (t_lanes 0) (t_lanes 1)) (min (t_lanes 2) (t_lanes 3))

/-- `cttz(movemask(cmpeq(hit_t, min)))`: the lowest lane whose best t equals
the horizontal minimum; `none` when the equality mask is empty. -/
def ctzLane (t_lanes : Fin 4 → ℚ) (m : ℚ) : Option (Fin 4) :=
  if t_lanes 0 = m then some 0
  else if t_lanes 1 = m then some 1
  else if t_lanes 2 = m then some 2
  else if t_lanes 3 = m then some 3
  else none

/-- collision.rs: `SpheresSoA::hit_sse4_1`. -/
def hit_sse4_1 (sq : ℚ → ℚ) (s : SpheresSoA) (r : Ray) (t_min t_max : ℚ) :
    Option (RayHit × ℕ) :=
  let f := sseLoop sq r t_min s.rows (fun _ => t_max) (fun _ => -1) 0
  let min_hit_t := hmin_sse2 f.1
  if min_hit_t < t_max then
    match ctzLane f.1 min_hit_t with
    | some lane =>
        let hit_index_scalar := (f.2 lane).toNat
        let hit_t_scalar := f.1 lane
        let point := r.point_at_parameter hit_t_scalar
        let normal := Vec3.smul (s.radius_inv.getD hit_index_scalar 0)
          (Vec3.sub point
            ⟨s.centre_x.getD hit_index_scalar 0, s.centre_y.getD hit_index_scalar 0,
              s.centre_z.getD hit_index_scalar 0⟩)
        some (⟨point, normal⟩, hit_index_scalar)
    | none => none
  else none

/-- collision.rs: `SpheresSoA::hit` - the dispatcher.  `sse41` stands for
the result of the runtime `is_x86_feature_detected!("sse4.1")` check. -/
def SpheresSoA.hit (sse41 : Bool) (sq : ℚ → ℚ) (s : SpheresSoA) (r : Ray)
    (t_min t_max : ℚ) : Option (RayHit × ℕ) :=
  if sse41 then hit_sse4_1 sq s r t_min t_max else hit_scalar sq s r t_min t_max

/-!  ### Running-minimum machinery

Both kernels are running-minimum scans over candidate `t` values: the scalar
kernel scans all rows; each SIMD lane scans the rows of its residue class.
`runMin` is the common shape: indices are carried alongside rows, acceptance
is `ok` together with a strict improvement of the best `t`. -/

/-- Default indexed row for out-of-range reads. -/
def pd : ℤ × Row := (0, d0)

theorem getD_mem_of_lt {α : Type} (l : List α) (d : α) (k : ℕ)
    (hk : k < l.length) : l.getD k d ∈ l := by
  induction l generalizing k with
  | nil => simp at hk
  | cons a rest ih =>
    cases k with
    | zero => simp
    | succ k =>
      simp only [List.getD_cons_succ]
      exact List.mem_cons_of_mem _ (ih k (by simpa using hk))

def runMin (ok : Row → Prop) [DecidablePred ok] (tf : Row → ℚ) :
    List (ℤ × Row) → ℚ × ℤ → ℚ × ℤ
  | [], acc => acc
  | p :: rest, acc =>
      runMin ok tf rest (if ok p.2 ∧ tf p.2 < acc.1 then (tf p.2, p.1) else acc)

/-- Full characterization of a running-minimum scan: either nothing was
accepted and every admissible candidate is at least the initial bound, or
the result is the first candidate attaining the least admissible value
strictly below the initial bound. -/
theorem runMin_spec (ok : Row → Prop) [inst : DecidablePred ok] (tf : Row → ℚ)
    (l : List (ℤ × Row)) (acc : ℚ × ℤ) :
    (runMin ok tf l acc = acc ∧ ∀ p ∈ l, ok p.2 → acc.1 ≤ tf p.2) ∨
    (∃ m, m < l.length ∧ ok (l.getD m pd).2 ∧ tf (l.getD m pd).2 < acc.1 ∧
      runMin ok tf l acc = (tf (l.getD m pd).2, (l.getD m pd).1) ∧
      (∀ k, k < l.length → ok (l.getD k pd).2 →
        tf (l.getD m pd).2 ≤ tf (l.getD k pd).2) ∧
      (∀ k, k < l.length → k < m → ok (l.getD k pd).2 →
        tf (l.getD m pd).2 < tf (l.getD k pd).2)) := by
  induction l generalizing acc with
  | nil =>
    left
    exact ⟨rfl, by simp⟩
  | cons p rest ih =>
    by_cases hacc : ok p.2 ∧ tf p.2 < acc.1
    · have hrun : runMin ok tf (p :: rest) acc = runMin ok tf rest (tf p.2, p.1) := by
        simp [runMin, hacc]
      rcases ih (tf p.2, p.1) with ⟨heq, hall⟩ | ⟨m, hm, hok, hlt, heq, hmin, hstrict⟩
      · right
        refine ⟨0, by simp, ?_, ?_, ?_, ?_, ?_⟩
        · simpa using hacc.1
        · simpa using hacc.2
        · rw [hrun, heq]; simp
        · intro k hk hokk
          cases k with
          | zero => simp
          | succ k =>
            simp only [List.getD_cons_succ, List.getD_cons_zero]
            exact hall _ (getD_mem_of_lt _ _ _ (by simpa using hk)) (by
              simpa [List.getD_cons_succ] using hokk)
        · intro k hk hk0 hokk
          omega
      · right
        refine ⟨m + 1, by simpa using hm, ?_, ?_, ?_, ?_, ?_⟩
        · simpa using hok
        · simp only [List.getD_cons_succ]
          exact lt_trans hlt hacc.2
        · rw [hrun, heq]; simp
        · intro k hk hokk
          cases k with
          | zero =>
            simp only [List.getD_cons_succ, List.getD_cons_zero] at hokk ⊢
            exact le_of_lt hlt
          | succ k =>
            simp only [List.getD_cons_succ] at hokk ⊢
            exact hmin k (by simpa using hk) hokk
        · intro k hk hklt hokk
          cases k with
          | zero =>
            simp only [List.getD_cons_succ, List.getD_cons_zero] at hokk ⊢
            exact hlt
          | succ k =>
            simp only [List.getD_cons_succ] at hokk ⊢
            exact hstrict k (by simpa using hk) (by omega) hokk
    · have hrun : runMin ok tf (p :: rest) acc = runMin ok tf rest acc := by
        simp [runMin, hacc]
      rcases ih acc with ⟨heq, hall⟩ | ⟨m, hm, hok, hlt, heq, hmin, hstrict⟩
      · left
        refine ⟨by rw [hrun, heq], ?_⟩
        intro q hq hokq
        rcases List.mem_cons.mp hq with h | h
        · subst h
          by_contra hcon
          push_neg at hcon
          exact hacc ⟨hokq, hcon⟩
        · exact hall q h hokq
      · right
        have hple : ∀ hokp : ok p.2, acc.1 ≤ tf p.2 := by
          intro hokp
          by_contra hcon
          push_neg at hcon
          exact hacc ⟨hokp, hcon⟩
        refine ⟨m + 1, by simpa using hm, ?_, ?_, ?_, ?_, ?_⟩
        · simpa using hok
        · simpa using hlt
        · rw [hrun, heq]; simp
        · intro k hk hokk
          cases k with
          | zero =>
            simp only [List.getD_cons_succ, List.getD_cons_zero] at hokk ⊢
            exact le_trans (le_of_lt hlt) (hple hokk)
          | succ k =>
            simp only [List.getD_cons_succ] at hokk ⊢
            exact hmin k (by simpa using hk) hokk
        · intro k hk hklt hokk
          cases k with
          | zero =>
            simp only [List.getD_cons_succ, List.getD_cons_zero] at hokk ⊢
            exact lt_of_lt_of_le hlt (hple hokk)
          | succ k =>
            simp only [List.getD_cons_succ] at hokk ⊢
            exact hstrict k (by simpa using hk) (by omega) hokk

/-- Rows paired with the indices `a, a + d, a + 2d, ...` they carry in a
scan. -/
def indexed (a d : ℤ) : List Row → List (ℤ × Row)
  | [] => []
  | w :: rest => (a, w) :: indexed (a + d) d rest

theorem length_indexed (a d : ℤ) (rows : List Row) :
    (indexed a d rows).length = rows.length := by
  induction rows generalizing a with
  | nil => rfl
  | cons w rest ih => simp [indexed, ih]

theorem indexed_getD (a d : ℤ) (rows : List Row) (k : ℕ)
    (hk : k < rows.length) :
    (indexed a d rows).getD k pd = (a + d * k, rows.getD k d0) := by
  induction rows generalizing a k with
  | nil => simp at hk
  | cons w rest ih =>
    cases k with
    | zero => simp [indexed]
    | succ k =>
      simp only [indexed, List.getD_cons_succ]
      rw [ih (a + d) k (by simpa using hk)]
      have h : a + d + d * (k : ℤ) = a + d * (((k : ℕ) + 1 : ℕ) : ℤ) := by
        push_cast
        ring
      rw [h]

/-- The scalar kernel's acceptance condition: positive discriminant and a
candidate strictly above `t_min`. -/
def okScal (sq : ℚ → ℚ) (r : Ray) (t_min : ℚ) (w : Row) : Prop :=
  0 < discOf r w ∧ t_min < tScal sq r t_min w

instance (sq : ℚ → ℚ) (r : Ray) (t_min : ℚ) :
    DecidablePred (okScal sq r t_min) :=
  fun _ => by unfold okScal; infer_instance

/-- The vector kernel's per-lane acceptance condition. -/
def okSse (sq : ℚ → ℚ) (r : Ray) (t_min : ℚ) (w : Row) : Prop :=
  0 < discOf r w ∧ t_min < tSse sq r t_min w

instance (sq : ℚ → ℚ) (r : Ray) (t_min : ℚ) :
    DecidablePred (okSse sq r t_min) :=
  fun _ => by unfold okSse; infer_instance

/-- The scalar loop is the running-minimum scan with consecutive indices. -/
theorem scalarLoop_eq_runMin (sq : ℚ → ℚ) (r : Ray) (t_min : ℚ)
    (rows : List Row) (k : ℕ) (b : ℚ) (i : ℕ) :
    scalarLoop sq r t_min rows k (b, i) =
      ((runMin (okScal sq r t_min) (tScal sq r t_min)
          (indexed (k : ℤ) 1 rows) (b, (i : ℤ))).1,
       (runMin (okScal sq r t_min) (tScal sq r t_min)
          (indexed (k : ℤ) 1 rows) (b, (i : ℤ))).2.toNat) := by
  induction rows generalizing k b i with
  | nil => simp [scalarLoop, indexed, runMin]
  | cons w rest ih =>
    by_cases hstep : okScal sq r t_min w ∧ tScal sq r t_min w < b
    · have h1 : scalarLoop sq r t_min (w :: rest) k (b, i) =
          scalarLoop sq r t_min rest (k + 1) (tScal sq r t_min w, k) := by
        simp only [scalarLoop]
        rw [if_pos hstep.1.1, if_pos ⟨hstep.1.2, hstep.2⟩]
      have h2 : runMin (okScal sq r t_min) (tScal sq r t_min)
          (indexed (k : ℤ) 1 (w :: rest)) (b, (i : ℤ)) =
          runMin (okScal sq r t_min) (tScal sq r t_min)
            (indexed ((k : ℤ) + 1) 1 rest) (tScal sq r t_min w, (k : ℤ)) := by
        simp only [indexed, runMin]
        rw [if_pos (by exact hstep)]
      rw [h1, h2]
      have hc : ((k : ℕ) + 1 : ℤ) = ((k : ℤ) + 1) := by ring
      rw [← hc]
      exact ih (k + 1) (tScal sq r t_min w) k
    · have h1 : scalarLoop sq r t_min (w :: rest) k (b, i) =
          scalarLoop sq r t_min rest (k + 1) (b, i) := by
        simp only [scalarLoop]
        by_cases hd : 0 < discOf r w
        · rw [if_pos hd, if_neg (by
            intro hc
            exact hstep ⟨⟨hd, hc.1⟩, hc.2⟩)]
        · rw [if_neg hd]
      have h2 : runMin (okScal sq r t_min) (tScal sq r t_min)
          (indexed (k : ℤ) 1 (w :: rest)) (b, (i : ℤ)) =
          runMin (okScal sq r t_min) (tScal sq r t_min)
            (indexed ((k : ℤ) + 1) 1 rest) (b, (i : ℤ)) := by
        simp only [indexed, runMin]
        rw [if_neg hstep]
      rw [h1, h2]
      have hc : ((k : ℕ) + 1 : ℤ) = ((k : ℤ) + 1) := by ring
      rw [← hc]
      exact ih (k + 1) b i

/-- Lane projection of one SIMD group: each lane performs exactly one
running-minimum step on its own row. -/
theorem sseGroup_proj (sq : ℚ → ℚ) (r : Ray) (t_min : ℚ) (g : Fin 4 → Row)
    (T : Fin 4 → ℚ) (I : Fin 4 → ℤ) (base : ℤ) (j : Fin 4) :
    ((sseGroup sq r t_min g T I base).1 j, (sseGroup sq r t_min g T I base).2 j) =
      (if okSse sq r t_min (g j) ∧ tSse sq r t_min (g j) < T j
        then (tSse sq r t_min (g j), base + (j : ℤ)) else (T j, I j)) := by
  by_cases hex : 0 < discOf r (g 0) ∨ 0 < discOf r (g 1) ∨ 0 < discOf r (g 2) ∨
      0 < discOf r (g 3)
  · have h1 : sseGroup sq r t_min g T I base =
        (fun j => if laneMask sq r t_min g T j then tSse sq r t_min (g j) else T j,
         fun j => if laneMask sq r t_min g T j then base + (j : ℤ) else I j) := by
      unfold sseGroup
      rw [if_pos hex]
    rw [h1]
    dsimp only
    have hiff : laneMask sq r t_min g T j ↔
        (okSse sq r t_min (g j) ∧ tSse sq r t_min (g j) < T j) := by
      unfold laneMask okSse
      tauto
    by_cases hm : laneMask sq r t_min g T j
    · simp only [if_pos hm, if_pos (hiff.mp hm)]
    · simp only [if_neg hm, if_neg (fun hc => hm (hiff.mpr hc))]
  · have h1 : sseGroup sq r t_min g T I base = (T, I) := by
      unfold sseGroup
      rw [if_neg hex]
    rw [h1]
    dsimp only
    rw [if_neg (by
      push_neg at hex
      intro hc
      have hd : 0 < discOf r (g j) := by
        have := hc.1
        unfold okSse at this
        exact this.1
      refine absurd hd ?_
      fin_cases j
      · exact not_lt.mpr hex.1
      · exact not_lt.mpr hex.2.1
      · exact not_lt.mpr hex.2.2.1
      · exact not_lt.mpr hex.2.2.2)]

/-- The rows a given lane consumes: every fourth row, starting at the lane
offset. -/
def lane4 (j : Fin 4) : List Row → List Row
  | w0 :: w1 :: w2 :: w3 :: rest => (![w0, w1, w2, w3] j) :: lane4 j rest
  | _ => []

theorem length_lane4 (j : Fin 4) :
    ∀ rows : List Row, rows.length % 4 = 0 →
      (lane4 j rows).length = rows.length / 4
  | [], _ => by simp [lane4]
  | [w0], h4 => by simp at h4
  | [w0, w1], h4 => by simp at h4
  | [w0, w1, w2], h4 => by simp at h4
  | w0 :: w1 :: w2 :: w3 :: rest, h4 => by
      have hrest : rest.length % 4 = 0 := by
        simp only [List.length_cons] at h4
        omega
      simp only [lane4, List.length_cons, length_lane4 j rest hrest]
      omega

theorem lane4_getD (j : Fin 4) :
    ∀ rows : List Row, rows.length % 4 = 0 →
      ∀ gp : ℕ, gp < rows.length / 4 →
        (lane4 j rows).getD gp d0 = rows.getD (4 * gp + (j : ℕ)) d0
  | [], _, gp, hgp => by simp at hgp
  | [w0], h4, _, _ => by simp at h4
  | [w0, w1], h4, _, _ => by simp at h4
  | [w0, w1, w2], h4, _, _ => by simp at h4
  | w0 :: w1 :: w2 :: w3 :: rest, h4, gp, hgp => by
      have hrest : rest.length % 4 = 0 := by
        simp only [List.length_cons] at h4
        omega
      cases gp with
      | zero =>
        simp only [lane4, List.getD_cons_zero]
        fin_cases j <;> rfl
      | succ gp =>
        have hgp' : gp < rest.length / 4 := by
          simp only [List.length_cons] at hgp
          omega
        simp only [lane4, List.getD_cons_succ]
        rw [lane4_getD j rest hrest gp hgp']
        have : 4 * (gp + 1) + (j : ℕ) = (4 * gp + (j : ℕ)) + 1 + 1 + 1 + 1 := by omega
        rw [this]
        rfl

/-- Lane projection of the whole SIMD loop: lane `j` is a running-minimum
scan over its rows with indices `base + j, base + j + 4, ...`. -/
theorem sseLoop_lane (sq : ℚ → ℚ) (r : Ray) (t_min : ℚ) (j : Fin 4) :
    ∀ (rows : List Row) (T : Fin 4 → ℚ) (I : Fin 4 → ℤ) (base : ℤ),
      rows.length % 4 = 0 →
      ((sseLoop sq r t_min rows T I base).1 j, (sseLoop sq r t_min rows T I base).2 j) =
        runMin (okSse sq r t_min) (tSse sq r t_min)
          (indexed (base + (j : ℤ)) 4 (lane4 j rows)) (T j, I j)
  | [], T, I, base, _ => by simp [sseLoop, lane4, indexed, runMin]
  | [w0], T, I, base, h4 => by simp at h4
  | [w0, w1], T, I, base, h4 => by simp at h4
  | [w0, w1, w2], T, I, base, h4 => by simp at h4
  | w0 :: w1 :: w2 :: w3 :: rest, T, I, base, h4 => by
      have hrest : rest.length % 4 = 0 := by
        simp only [List.length_cons] at h4
        omega
      have hloop : sseLoop sq r t_min (w0 :: w1 :: w2 :: w3 :: rest) T I base =
          sseLoop sq r t_min rest
            (sseGroup sq r t_min ![w0, w1, w2, w3] T I base).1
            (sseGroup sq r t_min ![w0, w1, w2, w3] T I base).2 (base + 4) := by
        simp only [sseLoop]
      rw [hloop]
      rw [sseLoop_lane sq r t_min j rest _ _ (base + 4) hrest]
      have hlane : lane4 j (w0 :: w1 :: w2 :: w3 :: rest) =
          (![w0, w1, w2, w3] j) :: lane4 j rest := by
        simp [lane4]
      rw [hlane]
      have hidx : indexed (base + (j : ℤ)) 4 ((![w0, w1, w2, w3] j) :: lane4 j rest) =
          (base + (j : ℤ), ![w0, w1, w2, w3] j) ::
            indexed (base + (j : ℤ) + 4) 4 (lane4 j rest) := by
        simp [indexed]
      rw [hidx]
      have hrm : runMin (okSse sq r t_min) (tSse sq r t_min)
          ((base + (j : ℤ), ![w0, w1, w2, w3] j) ::
            indexed (base + (j : ℤ) + 4) 4 (lane4 j rest)) (T j, I j) =
          runMin (okSse sq r t_min) (tSse sq r t_min)
            (indexed (base + (j : ℤ) + 4) 4 (lane4 j rest))
            (if okSse sq r t_min (![w0, w1, w2, w3] j) ∧
                tSse sq r t_min (![w0, w1, w2, w3] j) < T j
              then (tSse sq r t_min (![w0, w1, w2, w3] j), base + (j : ℤ))
              else (T j, I j)) := by
        simp only [runMin]
      rw [hrm]
      rw [← sseGroup_proj sq r t_min ![w0, w1, w2, w3] T I base j]
      have hb : base + 4 + ((j : ℕ) : ℤ) = base + ((j : ℕ) : ℤ) + 4 := by ring
      rw [hb]

/-!  ### Structure of stores built by `SpheresSoA.new` -/

/-- The row a real sphere contributes to the store. -/
def rowOf (sp : Sphere) : Row :=
  ⟨sp.centre.x, sp.centre.y, sp.centre.z, sp.radius * sp.radius⟩

/-- The sentinel padding row: centre f32::MAX on every axis, zero squared
radius. -/
def sentinel : Row := ⟨f32MAX, f32MAX, f32MAX, 0⟩

theorem align_to_ge (n : ℕ) : n ≤ align_to n 4 := by
  unfold align_to
  omega

theorem align_to_mod (n : ℕ) : align_to n 4 % 4 = 0 := by
  unfold align_to
  exact Nat.mul_mod_left _ _

/-- Four equally long attribute lists, reassembled into rows. -/
def zipRows : List ℚ → List ℚ → List ℚ → List ℚ → List Row
  | x :: xs, y :: ys, z :: zs, w :: ws => ⟨x, y, z, w⟩ :: zipRows xs ys zs ws
  | _, _, _, _ => []

theorem zip_map_rows : ∀ xs ys zs ws : List ℚ,
    (((xs.zip ys).zip zs).zip ws).map
      (fun p => (⟨p.1.1.1, p.1.1.2, p.1.2, p.2⟩ : Row)) = zipRows xs ys zs ws
  | [], _, _, _ => rfl
  | _ :: _, [], _, _ => rfl
  | _ :: _, _ :: _, [], _ => rfl
  | _ :: _, _ :: _, _ :: _, [] => rfl
  | x :: xs, y :: ys, z :: zs, w :: ws => by
      simp only [List.zip_cons_cons, List.map_cons, zipRows]
      rw [zip_map_rows xs ys zs ws]

theorem zipRows_append (xs : List ℚ) : ∀ ys zs ws xs2 ys2 zs2 ws2 : List ℚ,
    ys.length = xs.length → zs.length = xs.length → ws.length = xs.length →
    zipRows (xs ++ xs2) (ys ++ ys2) (zs ++ zs2) (ws ++ ws2) =
      zipRows xs ys zs ws ++ zipRows xs2 ys2 zs2 ws2 := by
  induction xs with
  | nil =>
    intro ys zs ws xs2 ys2 zs2 ws2 h1 h2 h3
    have hy : ys = [] := List.length_eq_zero.mp (by simpa using h1)
    have hz : zs = [] := List.length_eq_zero.mp (by simpa using h2)
    have hw : ws = [] := List.length_eq_zero.mp (by simpa using h3)
    subst hy hz hw
    simp [zipRows]
  | cons x xs ih =>
    intro ys zs ws xs2 ys2 zs2 ws2 h1 h2 h3
    rcases ys with _ | ⟨y, ys⟩
    · simp at h1
    rcases zs with _ | ⟨z, zs⟩
    · simp at h2
    rcases ws with _ | ⟨w, ws⟩
    · simp at h3
    simp only [List.cons_append, zipRows]
    congr 1
    exact ih ys zs ws xs2 ys2 zs2 ws2 (by simpa using h1) (by simpa using h2)
      (by simpa using h3)

theorem zipRows_map (l : List Sphere) :
    zipRows (l.map fun s => s.centre.x) (l.map fun s => s.centre.y)
      (l.map fun s => s.centre.z) (l.map fun s => s.radius * s.radius) =
      l.map rowOf := by
  induction l with
  | nil => rfl
  | cons sp rest ih =>
    simp only [List.map_cons, zipRows, ih]
    rfl

theorem zipRows_replicate (p : ℕ) :
    zipRows (List.replicate p f32MAX) (List.replicate p f32MAX)
      (List.replicate p f32MAX) (List.replicate p 0) =
      List.replicate p sentinel := by
  induction p with
  | zero => rfl
  | succ p ih =>
    simp only [List.replicate_succ, zipRows, ih]
    rfl

/-- Rows of a freshly built store: the real spheres in order, then the
sentinel padding rows. -/
theorem rows_new (spheres : List Sphere) :
    (SpheresSoA.new spheres).rows =
      spheres.map rowOf ++
        List.replicate (align_to spheres.length 4 - spheres.length) sentinel := by
  unfold SpheresSoA.new SpheresSoA.rows
  dsimp only
  rw [zip_map_rows]
  rw [zipRows_append _ _ _ _ _ _ _ _ (by simp) (by simp) (by simp)]
  rw [zipRows_map, zipRows_replicate]

theorem len_new (spheres : List Sphere) :
    (SpheresSoA.new spheres).len = align_to spheres.length 4 := rfl

theorem num_new (spheres : List Sphere) :
    (SpheresSoA.new spheres).num_spheres = spheres.length := rfl

theorem length_rows_new (spheres : List Sphere) :
    (SpheresSoA.new spheres).rows.length = (SpheresSoA.new spheres).len := by
  rw [rows_new, len_new]
  have := align_to_ge spheres.length
  simp [List.length_append, List.length_map, List.length_replicate]
  omega

theorem rows_new_getD_lt (spheres : List Sphere) (i : ℕ)
    (hi : i < spheres.length) :
    (SpheresSoA.new spheres).rows.getD i d0 =
      rowOf (spheres.getD i ⟨⟨0, 0, 0⟩, 0⟩) := by
  rw [rows_new]
  rw [List.getD_append _ _ _ _ (by simpa using hi)]
  induction spheres generalizing i with
  | nil => simp at hi
  | cons sp rest ih =>
    cases i with
    | zero => simp
    | succ i =>
      simp only [List.map_cons, List.getD_cons_succ]
      exact ih i (by simpa using hi)

theorem rows_new_getD_sentinel (spheres : List Sphere) (i : ℕ)
    (hi1 : spheres.length ≤ i) (hi2 : i < align_to spheres.length 4) :
    (SpheresSoA.new spheres).rows.getD i d0 = sentinel := by
  rw [rows_new]
  rw [List.getD_append_right _ _ _ _ (by simpa using hi1)]
  have hlt : i - spheres.length < align_to spheres.length 4 - spheres.length := by
    omega
  rw [List.getD_eq_getElem _ _ (by simpa using hlt)]
  simp

/-- The hit record both kernels build from a winning `(t, index)` pair. -/
def hitPoint (s : SpheresSoA) (r : Ray) (t : ℚ) (i : ℕ) : RayHit :=
  ⟨r.point_at_parameter t,
    Vec3.smul (s.radius_inv.getD i 0)
      (Vec3.sub (r.point_at_parameter t)
        ⟨s.centre_x.getD i 0, s.centre_y.getD i 0, s.centre_z.getD i 0⟩)⟩

/-!  ### Master characterizations of the two kernels -/

/-- The scalar kernel returns `none` exactly when no row qualifies, and
otherwise the first row attaining the least qualifying candidate `t`. -/
theorem hit_scalar_master (sq : ℚ → ℚ) (s : SpheresSoA) (r : Ray)
    (t_min t_max : ℚ) (hr : s.rows.length = s.len) :
    (hit_scalar sq s r t_min t_max = none ∧
      ∀ k, k < s.len →
        ¬(okScal sq r t_min (s.rows.getD k d0) ∧
          tScal sq r t_min (s.rows.getD k d0) < t_max)) ∨
    (∃ i, i < s.len ∧ okScal sq r t_min (s.rows.getD i d0) ∧
      tScal sq r t_min (s.rows.getD i d0) < t_max ∧
      hit_scalar sq s r t_min t_max =
        some (hitPoint s r (tScal sq r t_min (s.rows.getD i d0)) i, i) ∧
      (∀ k, k < s.len → okScal sq r t_min (s.rows.getD k d0) →
        tScal sq r t_min (s.rows.getD i d0) ≤ tScal sq r t_min (s.rows.getD k d0)) ∧
      (∀ k, k < s.len → k < i → okScal sq r t_min (s.rows.getD k d0) →
        tScal sq r t_min (s.rows.getD i d0) < tScal sq r t_min (s.rows.getD k d0))) := by
  have hbr := scalarLoop_eq_runMin sq r t_min s.rows 0 t_max s.len
  rcases runMin_spec (okScal sq r t_min) (tScal sq r t_min)
      (indexed ((0 : ℕ) : ℤ) 1 s.rows) (t_max, (s.len : ℤ)) with
    ⟨heq, hall⟩ | ⟨m, hm, hok, hlt, heq, hminim, hstrict⟩
  · left
    have hf : scalarLoop sq r t_min s.rows 0 (t_max, s.len) = (t_max, s.len) := by
      rw [hbr, heq]
      simp
    constructor
    · simp only [hit_scalar, hf]
      simp
    · intro k hk hcon
      have hkr : k < s.rows.length := by omega
      have hgd := indexed_getD ((0 : ℕ) : ℤ) 1 s.rows k hkr
      have hmem := getD_mem_of_lt (indexed ((0 : ℕ) : ℤ) 1 s.rows) pd k
        (by rw [length_indexed]; exact hkr)
      rw [hgd] at hmem
      have := hall _ hmem hcon.1
      simp only at this
      exact absurd hcon.2 (not_lt.mpr this)
  · right
    have hmr : m < s.rows.length := by
      rw [length_indexed] at hm
      exact hm
    have hgd := indexed_getD ((0 : ℕ) : ℤ) 1 s.rows m hmr
    rw [hgd] at hok hlt heq hminim hstrict
    simp only at hok hlt heq hminim hstrict
    refine ⟨m, by omega, hok, hlt, ?_, ?_, ?_⟩
    · have hf : scalarLoop sq r t_min s.rows 0 (t_max, s.len) =
          (tScal sq r t_min (s.rows.getD m d0), m) := by
        rw [hbr, heq]
        simp
      simp only [hit_scalar, hf]
      rw [if_pos (by omega : m < s.len)]
      rfl
    · intro k hk hokk
      have hkr : k < s.rows.length := by omega
      have hgdk := indexed_getD ((0 : ℕ) : ℤ) 1 s.rows k hkr
      have := hminim k (by rw [length_indexed]; exact hkr)
      rw [hgdk] at this
      simp only at this
      exact this hokk
    · intro k hk hki hokk
      have hkr : k < s.rows.length := by omega
      have hgdk := indexed_getD ((0 : ℕ) : ℤ) 1 s.rows k hkr
      have := hstrict k (by rw [length_indexed]; exact hkr) hki
      rw [hgdk] at this
      simp only at this
      exact this hokk

theorem hmin_sse2_le (T : Fin 4 → ℚ) (j : Fin 4) : hmin_sse2 T ≤ T j := by
  have hlo : hmin_sse2 T ≤ min (T 0) (T 1) := min_le_left _ _
  have hhi : hmin_sse2 T ≤ min (T 2) (T 3) := min_le_right _ _
  fin_cases j
  · exact hlo.trans (min_le_left _ _)
  · exact hlo.trans (min_le_right _ _)
  · exact hhi.trans (min_le_left _ _)
  · exact hhi.trans (min_le_right _ _)

theorem hmin_sse2_attained (T : Fin 4 → ℚ) : ∃ j, T j = hmin_sse2 T := by
  unfold hmin_sse2
  rcases min_choice (min (T 0) (T 1)) (min (T 2) (T 3)) with h | h
  · rcases min_choice (T 0) (T 1) with h2 | h2
    · exact ⟨0, by rw [h, h2]⟩
    · exact ⟨1, by rw [h, h2]⟩
  · rcases min_choice (T 2) (T 3) with h2 | h2
    · exact ⟨2, by rw [h, h2]⟩
    · exact ⟨3, by rw [h, h2]⟩

theorem ctzLane_spec (T : Fin 4 → ℚ) (m : ℚ) (hex : ∃ j, T j = m) :
    ∃ j0, ctzLane T m = some j0 ∧ T j0 = m ∧ ∀ j, T j = m → j0 ≤ j := by
  unfold ctzLane
  by_cases h0 : T 0 = m
  · exact ⟨0, by simp [h0], h0, fun j _ => Fin.zero_le j⟩
  · by_cases h1 : T 1 = m
    · refine ⟨1, by simp [h0, h1], h1, ?_⟩
      intro j hj
      fin_cases j
      · exact absurd hj h0
      · exact le_refl _
      · decide
      · decide
    · by_cases h2 : T 2 = m
      · refine ⟨2, by simp [h0, h1, h2], h2, ?_⟩
        intro j hj
        fin_cases j
        · exact absurd hj h0
        · exact absurd hj h1
        · exact le_refl _
        · decide
      · by_cases h3 : T 3 = m
        · refine ⟨3, by simp [h0, h1, h2, h3], h3, ?_⟩
          intro j hj
          fin_cases j
          · exact absurd hj h0
          · exact absurd hj h1
          · exact absurd hj h2
          · exact le_refl _
        · exfalso
          obtain ⟨j, hj⟩ := hex
          fin_cases j
          · exact h0 hj
          · exact h1 hj
          · exact h2 hj
          · exact h3 hj

/-- Per-lane characterization of the finished SIMD loop, phrased with
row indices `4 * group + lane`. -/
theorem sse_lane_char (sq : ℚ → ℚ) (s : SpheresSoA) (r : Ray)
    (t_min t_max : ℚ) (hr : s.rows.length = s.len) (h4 : s.len % 4 = 0)
    (T : Fin 4 → ℚ) (I : Fin 4 → ℤ)
    (hTI : sseLoop sq r t_min s.rows (fun _ => t_max) (fun _ => -1) 0 = (T, I))
    (j : Fin 4) :
    (T j = t_max ∧ ∀ gp, gp < s.len / 4 →
      okSse sq r t_min (s.rows.getD (4 * gp + (j : ℕ)) d0) →
      t_max ≤ tSse sq r t_min (s.rows.getD (4 * gp + (j : ℕ)) d0)) ∨
    (∃ gp, gp < s.len / 4 ∧
      okSse sq r t_min (s.rows.getD (4 * gp + (j : ℕ)) d0) ∧
      tSse sq r t_min (s.rows.getD (4 * gp + (j : ℕ)) d0) < t_max ∧
      T j = tSse sq r t_min (s.rows.getD (4 * gp + (j : ℕ)) d0) ∧
      I j = ((4 * gp + (j : ℕ) : ℕ) : ℤ) ∧
      (∀ gk, gk < s.len / 4 →
        okSse sq r t_min (s.rows.getD (4 * gk + (j : ℕ)) d0) →
        T j ≤ tSse sq r t_min (s.rows.getD (4 * gk + (j : ℕ)) d0)) ∧
      (∀ gk, gk < s.len / 4 → gk < gp →
        okSse sq r t_min (s.rows.getD (4 * gk + (j : ℕ)) d0) →
        T j < tSse sq r t_min (s.rows.getD (4 * gk + (j : ℕ)) d0))) := by
  have hlen4 : s.rows.length % 4 = 0 := by rw [hr]; exact h4
  have hb := sseLoop_lane sq r t_min j s.rows (fun _ => t_max) (fun _ => -1) 0 hlen4
  rw [hTI] at hb
  have hlanelen : (lane4 j s.rows).length = s.len / 4 := by
    rw [length_lane4 j s.rows hlen4, hr]
  have hilen : (indexed (0 + ((j : ℕ) : ℤ)) 4 (lane4 j s.rows)).length = s.len / 4 := by
    rw [length_indexed, hlanelen]
  have hgd : ∀ gp, gp < s.len / 4 →
      (indexed (0 + ((j : ℕ) : ℤ)) 4 (lane4 j s.rows)).getD gp pd =
        (0 + ((j : ℕ) : ℤ) + 4 * gp, s.rows.getD (4 * gp + (j : ℕ)) d0) := by
    intro gp hgp
    rw [indexed_getD _ _ _ gp (by rw [hlanelen]; exact hgp)]
    rw [lane4_getD j s.rows hlen4 gp (by rw [← hr] at hgp; exact (by omega : gp < s.rows.length / 4))]
  rcases runMin_spec (okSse sq r t_min) (tSse sq r t_min)
      (indexed (0 + ((j : ℕ) : ℤ)) 4 (lane4 j s.rows)) (t_max, -1) with
    ⟨heq, hall⟩ | ⟨m, hm, hok, hlt, heq, hminim, hstrict⟩
  · left
    rw [heq] at hb
    have hb1 : T j = t_max := by
      have := congrArg Prod.fst hb
      simpa using this
    refine ⟨hb1, ?_⟩
    intro gp hgp hokgp
    have hmem := getD_mem_of_lt (indexed (0 + ((j : ℕ) : ℤ)) 4 (lane4 j s.rows)) pd gp
      (by rw [hilen]; exact hgp)
    rw [hgd gp hgp] at hmem
    have := hall _ hmem hokgp
    simpa using this
  · right
    have hmlt : m < s.len / 4 := by rw [hilen] at hm; exact hm
    rw [hgd m hmlt] at hok hlt heq hminim hstrict
    simp only at hok hlt heq hminim hstrict
    rw [heq] at hb
    have hb1 : T j = tSse sq r t_min (s.rows.getD (4 * m + (j : ℕ)) d0) := by
      have := congrArg Prod.fst hb
      simpa using this
    have hb2 : I j = ((4 * m + (j : ℕ) : ℕ) : ℤ) := by
      have := congrArg Prod.snd hb
      simp only at this
      rw [this]
      push_cast
      ring
    refine ⟨m, hmlt, hok, hlt, hb1, hb2, ?_, ?_⟩
    · intro gk hgk hokgk
      have := hminim gk (by rw [hilen]; exact hgk)
      rw [hgd gk hgk] at this
      simp only at this
      rw [hb1]
      exact this hokgk
    · intro gk hgk hgkm hokgk
      have := hstrict gk (by rw [hilen]; exact hgk) hgkm
      rw [hgd gk hgk] at this
      simp only at this
      rw [hb1]
      exact this hokgk

/-- The vector kernel returns `none` exactly when no row qualifies;
otherwise it returns the qualifying row attaining the minimal candidate `t`
that lies in the lowest lane holding that minimum (earliest group within
the lane), with point and normal computed from that row. -/
theorem hit_sse4_1_master (sq : ℚ → ℚ) (s : SpheresSoA) (r : Ray)
    (t_min t_max : ℚ) (hr : s.rows.length = s.len) (h4 : s.len % 4 = 0) :
    (hit_sse4_1 sq s r t_min t_max = none ∧
      ∀ k, k < s.len →
        ¬(okSse sq r t_min (s.rows.getD k d0) ∧
          tSse sq r t_min (s.rows.getD k d0) < t_max)) ∨
    (∃ i, i < s.len ∧ okSse sq r t_min (s.rows.getD i d0) ∧
      tSse sq r t_min (s.rows.getD i d0) < t_max ∧
      hit_sse4_1 sq s r t_min t_max =
        some (hitPoint s r (tSse sq r t_min (s.rows.getD i d0)) i, i) ∧
      (∀ k, k < s.len → okSse sq r t_min (s.rows.getD k d0) →
        tSse sq r t_min (s.rows.getD i d0) ≤ tSse sq r t_min (s.rows.getD k d0)) ∧
      (∀ k, k < s.len → okSse sq r t_min (s.rows.getD k d0) →
        tSse sq r t_min (s.rows.getD k d0) = tSse sq r t_min (s.rows.getD i d0) →
        i % 4 ≤ k % 4 ∧ (i % 4 = k % 4 → i ≤ k))) := by
  obtain ⟨T, I, hTI⟩ : ∃ T I,
      sseLoop sq r t_min s.rows (fun _ => t_max) (fun _ => -1) 0 = (T, I) :=
    ⟨_, _, rfl⟩
  have hchar := sse_lane_char sq s r t_min t_max hr h4 T I hTI
  by_cases hA : ∀ j : Fin 4, T j = t_max
  · left
    have hmin_eq : hmin_sse2 T = t_max := by
      unfold hmin_sse2
      rw [hA 0, hA 1, hA 2, hA 3]
      simp
    constructor
    · simp only [hit_sse4_1, hTI, hmin_eq]
      simp
    · intro k hk hcon
      have hjk4 : k % 4 < 4 := by omega
      rcases hchar ⟨k % 4, hjk4⟩ with ⟨_, hge⟩ | ⟨gp, hgp, hokp, hltp, hT, _, _, _⟩
      · have hkeq : 4 * (k / 4) + ((⟨k % 4, hjk4⟩ : Fin 4) : ℕ) = k := by
          simp only [Fin.val_mk]
          omega
        have := hge (k / 4) (by omega)
        rw [hkeq] at this
        exact absurd hcon.2 (not_lt.mpr (this hcon.1))
      · rw [hA ⟨k % 4, hjk4⟩] at hT
        rw [← hT] at hltp
        exact lt_irrefl _ hltp
  · right
    push_neg at hA
    obtain ⟨jw, hjw⟩ := hA
    have hmlt : hmin_sse2 T < t_max := by
      rcases hchar jw with ⟨hTjw, _⟩ | ⟨gp, _, _, hltw, hTjw, _, _, _⟩
      · exact absurd hTjw hjw
      · exact lt_of_le_of_lt (hmin_sse2_le T jw) (hTjw ▸ hltw)
    obtain ⟨ja, hja⟩ := hmin_sse2_attained T
    obtain ⟨j0, hctz, hTj0, hleast⟩ := ctzLane_spec T (hmin_sse2 T) ⟨ja, hja⟩
    rcases hchar j0 with ⟨hTj0', _⟩ | ⟨g0, hg0, hok0, hlt0, hT0, hI0, hmin0, hstrict0⟩
    · exact absurd (hTj0'.symm.trans hTj0) (ne_of_gt hmlt)
    have hi4 : (j0 : ℕ) < 4 := j0.isLt
    have hilen : 4 * g0 + (j0 : ℕ) < s.len := by omega
    have himod : (4 * g0 + (j0 : ℕ)) % 4 = (j0 : ℕ) := by omega
    refine ⟨4 * g0 + (j0 : ℕ), hilen, hok0, hlt0, ?_, ?_, ?_⟩
    · simp only [hit_sse4_1, hTI]
      rw [if_pos hmlt, hctz]
      dsimp only
      have htn : (I j0).toNat = 4 * g0 + (j0 : ℕ) := by
        rw [hI0, Int.toNat_natCast]
      rw [htn, hT0]
      rfl
    · intro k hk hokk
      have hjk4 : k % 4 < 4 := by omega
      have hkeq : 4 * (k / 4) + ((⟨k % 4, hjk4⟩ : Fin 4) : ℕ) = k := by
        simp only [Fin.val_mk]
        omega
      have hti : tSse sq r t_min (s.rows.getD (4 * g0 + (j0 : ℕ)) d0) = hmin_sse2 T := by
        rw [← hT0, hTj0]
      rcases hchar ⟨k % 4, hjk4⟩ with ⟨_, hge⟩ | ⟨gp, hgp, _, _, hTk, _, hmink, _⟩
      · have := hge (k / 4) (by omega)
        rw [hkeq] at this
        rw [hti]
        exact le_trans (le_of_lt hmlt) (this hokk)
      · have := hmink (k / 4) (by omega)
        rw [hkeq] at this
        rw [hti]
        exact le_trans (hmin_sse2_le T ⟨k % 4, hjk4⟩) (this hokk)
    · intro k hk hokk htk
      have hjk4 : k % 4 < 4 := by omega
      have hkeq : 4 * (k / 4) + ((⟨k % 4, hjk4⟩ : Fin 4) : ℕ) = k := by
        simp only [Fin.val_mk]
        omega
      have hti : tSse sq r t_min (s.rows.getD (4 * g0 + (j0 : ℕ)) d0) = hmin_sse2 T := by
        rw [← hT0, hTj0]
      have htk' : tSse sq r t_min (s.rows.getD k d0) = hmin_sse2 T := by
        rw [htk, hti]
      rcases hchar ⟨k % 4, hjk4⟩ with ⟨_, hge⟩ | ⟨gp, hgp, _, _, hTk, _, hmink, hstrictk⟩
      · have := hge (k / 4) (by omega)
        rw [hkeq] at this
        have := this hokk
        rw [htk'] at this
        exact absurd hmlt (not_lt.mpr this)
      · have hTkm : T ⟨k % 4, hjk4⟩ = hmin_sse2 T := by
          have h1 := hmink (k / 4) (by omega)
          rw [hkeq] at h1
          have h1 := h1 hokk
          rw [htk'] at h1
          exact le_antisymm h1 (hmin_sse2_le T ⟨k % 4, hjk4⟩)
        have hj0le : j0 ≤ (⟨k % 4, hjk4⟩ : Fin 4) := hleast _ hTkm
        have hj0le' : (j0 : ℕ) ≤ k % 4 := hj0le
        constructor
        · omega
        · intro hmod
          have hkj0 : 4 * (k / 4) + (j0 : ℕ) = k := by omega
          by_contra hik
          push_neg at hik
          have hgk0 : k / 4 < g0 := by omega
          have hcc := hstrict0 (k / 4) (by omega) hgk0
          rw [hkj0] at hcc
          have hcc := hcc hokk
          rw [htk', hTj0] at hcc
          exact lt_irrefl _ hcc

/-!  ### Qualification predicates used by the claim statements -/

/-- Row `k` of the store qualifies under the scalar kernel's rules: positive
discriminant and scalar-rule candidate strictly inside `(t_min, t_max)`. -/
def qualScalAt (sq : ℚ → ℚ) (r : Ray) (t_min t_max : ℚ) (s : SpheresSoA)
    (k : ℕ) : Prop :=
  okScal sq r t_min (s.rows.getD k d0) ∧
    tScal sq r t_min (s.rows.getD k d0) < t_max

instance (sq : ℚ → ℚ) (r : Ray) (t_min t_max : ℚ) (s : SpheresSoA) :
    DecidablePred (qualScalAt sq r t_min t_max s) :=
  fun _ => by unfold qualScalAt; infer_instance

/-- Row `k` of the store qualifies under the vector kernel's rules. -/
def qualSseAt (sq : ℚ → ℚ) (r : Ray) (t_min t_max : ℚ) (s : SpheresSoA)
    (k : ℕ) : Prop :=
  okSse sq r t_min (s.rows.getD k d0) ∧
    tSse sq r t_min (s.rows.getD k d0) < t_max

instance (sq : ℚ → ℚ) (r : Ray) (t_min t_max : ℚ) (s : SpheresSoA) :
    DecidablePred (qualSseAt sq r t_min t_max s) :=
  fun _ => by unfold qualSseAt; infer_instance

/-!  ### Claim theorems -/

/-- Claim C10: the store built from the empty sphere list has
`logical_count = 0` and `padded_count = 0`, and `hit` returns `none` on it
for every ray, `t_min`, `t_max`, whichever kernel the dispatcher picks. -/
theorem new_empty_no_hit :
    (SpheresSoA.new []).len = 0 ∧ (SpheresSoA.new []).num_spheres = 0 ∧
    ∀ (sse41 : Bool) (sq : ℚ → ℚ) (r : Ray) (t_min t_max : ℚ),
      SpheresSoA.hit sse41 sq (SpheresSoA.new []) r t_min t_max = none := by
  refine ⟨rfl, rfl, ?_⟩
  intro b sq r t_min t_max
  have hrows : (SpheresSoA.new ([] : List Sphere)).rows = [] := rfl
  cases b
  · simp [SpheresSoA.hit, hit_scalar, hrows, scalarLoop]
  · simp [SpheresSoA.hit, hit_sse4_1, hrows, sseLoop, hmin_sse2]

/-- Claim C7: whichever kernel the dispatcher runs, a returned hit always
comes from a sphere row whose discriminant is strictly positive, so a ray
exactly tangent to a sphere (discriminant = 0) never produces a hit from
that sphere. -/
theorem hit_disc_pos (sse41 : Bool) (sq : ℚ → ℚ) (spheres : List Sphere)
    (r : Ray) (t_min t_max : ℚ) (h : RayHit) (i : ℕ)
    (hs : SpheresSoA.hit sse41 sq (SpheresSoA.new spheres) r t_min t_max =
      some (h, i)) :
    i < (SpheresSoA.new spheres).len ∧
      0 < discOf r ((SpheresSoA.new spheres).rows.getD i d0) := by
  have hr := length_rows_new spheres
  have h4 : (SpheresSoA.new spheres).len % 4 = 0 := by
    rw [len_new]
    exact align_to_mod _
  cases sse41
  · have hs' : hit_scalar sq (SpheresSoA.new spheres) r t_min t_max = some (h, i) := by
      simpa [SpheresSoA.hit] using hs
    rcases hit_scalar_master sq (SpheresSoA.new spheres) r t_min t_max hr with
      ⟨hnone, _⟩ | ⟨j, hj, hok, _, hsome, _, _⟩
    · rw [hnone] at hs'
      exact absurd hs' (by simp)
    · rw [hsome] at hs'
      obtain ⟨-, hji⟩ : hitPoint _ r _ j = h ∧ j = i := by simpa using hs'
      subst hji
      exact ⟨hj, hok.1⟩
  · have hs' : hit_sse4_1 sq (SpheresSoA.new spheres) r t_min t_max = some (h, i) := by
      simpa [SpheresSoA.hit] using hs
    rcases hit_sse4_1_master sq (SpheresSoA.new spheres) r t_min t_max hr h4 with
      ⟨hnone, _⟩ | ⟨j, hj, hok, _, hsome, _, _⟩
    · rw [hnone] at hs'
      exact absurd hs' (by simp)
    · rw [hsome] at hs'
      obtain ⟨-, hji⟩ : hitPoint _ r _ j = h ∧ j = i := by simpa using hs'
      subst hji
      exact ⟨hj, hok.1⟩

theorem hit_disc_pos_witness :
    (0 : ℕ) < (SpheresSoA.new [⟨⟨0, 0, -1⟩, 1/2⟩]).len ∧
      0 < discOf ⟨⟨0, 0, 0⟩, ⟨0, 0, -1⟩⟩
        ((SpheresSoA.new [⟨⟨0, 0, -1⟩, 1/2⟩]).rows.getD 0 d0) :=
  hit_disc_pos false (fun x => if x = 1/4 then 1/2 else 0) [⟨⟨0, 0, -1⟩, 1/2⟩]
    ⟨⟨0, 0, 0⟩, ⟨0, 0, -1⟩⟩ (1/1000) 100 ⟨⟨0, 0, -1/2⟩, ⟨0, 0, 1⟩⟩ 0 (by decide)

/-- Claim C3: when the scalar kernel reports a hit `(h, i)`, row `i`
qualifies, its scalar-rule candidate `t` (nearer root unless below `t_min`,
else farther root) is minimal among all qualifying rows, ties go to the
lower index (a later equal-`t` candidate fails the strict `<`), and the
returned point is `origin + t * direction` for that minimal `t`. -/
theorem hit_scalar_nearest (sq : ℚ → ℚ) (spheres : List Sphere) (r : Ray)
    (t_min t_max : ℚ) (h : RayHit) (i : ℕ)
    (hs : hit_scalar sq (SpheresSoA.new spheres) r t_min t_max = some (h, i)) :
    i < (SpheresSoA.new spheres).len ∧
    qualScalAt sq r t_min t_max (SpheresSoA.new spheres) i ∧
    h.point = r.point_at_parameter
      (tScal sq r t_min ((SpheresSoA.new spheres).rows.getD i d0)) ∧
    (∀ k, k < (SpheresSoA.new spheres).len →
      qualScalAt sq r t_min t_max (SpheresSoA.new spheres) k →
      tScal sq r t_min ((SpheresSoA.new spheres).rows.getD i d0) ≤
        tScal sq r t_min ((SpheresSoA.new spheres).rows.getD k d0)) ∧
    (∀ k, k < (SpheresSoA.new spheres).len →
      qualScalAt sq r t_min t_max (SpheresSoA.new spheres) k →
      tScal sq r t_min ((SpheresSoA.new spheres).rows.getD k d0) =
        tScal sq r t_min ((SpheresSoA.new spheres).rows.getD i d0) → i ≤ k) := by
  have hr := length_rows_new spheres
  rcases hit_scalar_master sq (SpheresSoA.new spheres) r t_min t_max hr with
    ⟨hnone, _⟩ | ⟨j, hj, hok, hlt, hsome, hminim, hstrict⟩
  · rw [hnone] at hs
    exact absurd hs (by simp)
  · rw [hsome] at hs
    have hpair := Option.some.inj hs
    have hh : hitPoint (SpheresSoA.new spheres) r
        (tScal sq r t_min ((SpheresSoA.new spheres).rows.getD j d0)) j = h :=
      congrArg Prod.fst hpair
    have hji : j = i := congrArg Prod.snd hpair
    subst hji
    refine ⟨hj, ⟨hok, hlt⟩, ?_, ?_, ?_⟩
    · rw [← hh]
      rfl
    · intro k hk hqk
      exact hminim k hk hqk.1
    · intro k hk hqk hteq
      by_contra hik
      push_neg at hik
      have := hstrict k hk hik hqk.1
      rw [hteq] at this
      exact lt_irrefl _ this

theorem hit_scalar_nearest_witness :
    (1 : ℕ) < (SpheresSoA.new [⟨⟨10, 0, 0⟩, 1⟩, ⟨⟨5, 0, 0⟩, 1⟩]).len ∧
    qualScalAt (fun x => if x = 1 then 1 else 0) ⟨⟨0, 0, 0⟩, ⟨1, 0, 0⟩⟩
      (1/1000) 100 (SpheresSoA.new [⟨⟨10, 0, 0⟩, 1⟩, ⟨⟨5, 0, 0⟩, 1⟩]) 1 ∧
    (⟨⟨4, 0, 0⟩, ⟨-1, 0, 0⟩⟩ : RayHit).point =
      Ray.point_at_parameter ⟨⟨0, 0, 0⟩, ⟨1, 0, 0⟩⟩
        (tScal (fun x => if x = 1 then 1 else 0) ⟨⟨0, 0, 0⟩, ⟨1, 0, 0⟩⟩ (1/1000)
          ((SpheresSoA.new [⟨⟨10, 0, 0⟩, 1⟩, ⟨⟨5, 0, 0⟩, 1⟩]).rows.getD 1 d0)) ∧
    (∀ k, k < (SpheresSoA.new [⟨⟨10, 0, 0⟩, 1⟩, ⟨⟨5, 0, 0⟩, 1⟩]).len →
      qualScalAt (fun x => if x = 1 then 1 else 0) ⟨⟨0, 0, 0⟩, ⟨1, 0, 0⟩⟩
        (1/1000) 100 (SpheresSoA.new [⟨⟨10, 0, 0⟩, 1⟩, ⟨⟨5, 0, 0⟩, 1⟩]) k →
      tScal (fun x => if x = 1 then 1 else 0) ⟨⟨0, 0, 0⟩, ⟨1, 0, 0⟩⟩ (1/1000)
          ((SpheresSoA.new [⟨⟨10, 0, 0⟩, 1⟩, ⟨⟨5, 0, 0⟩, 1⟩]).rows.getD 1 d0) ≤
        tScal (fun x => if x = 1 then 1 else 0) ⟨⟨0, 0, 0⟩, ⟨1, 0, 0⟩⟩ (1/1000)
          ((SpheresSoA.new [⟨⟨10, 0, 0⟩, 1⟩, ⟨⟨5, 0, 0⟩, 1⟩]).rows.getD k d0)) ∧
    (∀ k, k < (SpheresSoA.new [⟨⟨10, 0, 0⟩, 1⟩, ⟨⟨5, 0, 0⟩, 1⟩]).len →
      qualScalAt (fun x => if x = 1 then 1 else 0) ⟨⟨0, 0, 0⟩, ⟨1, 0, 0⟩⟩
        (1/1000) 100 (SpheresSoA.new [⟨⟨10, 0, 0⟩, 1⟩, ⟨⟨5, 0, 0⟩, 1⟩]) k →
      tScal (fun x => if x = 1 then 1 else 0) ⟨⟨0, 0, 0⟩, ⟨1, 0, 0⟩⟩ (1/1000)
          ((SpheresSoA.new [⟨⟨10, 0, 0⟩, 1⟩, ⟨⟨5, 0, 0⟩, 1⟩]).rows.getD k d0) =
        tScal (fun x => if x = 1 then 1 else 0) ⟨⟨0, 0, 0⟩, ⟨1, 0, 0⟩⟩ (1/1000)
          ((SpheresSoA.new [⟨⟨10, 0, 0⟩, 1⟩, ⟨⟨5, 0, 0⟩, 1⟩]).rows.getD 1 d0) →
        1 ≤ k) :=
  hit_scalar_nearest (fun x => if x = 1 then 1 else 0)
    [⟨⟨10, 0, 0⟩, 1⟩, ⟨⟨5, 0, 0⟩, 1⟩] ⟨⟨0, 0, 0⟩, ⟨1, 0, 0⟩⟩ (1/1000) 100
    ⟨⟨4, 0, 0⟩, ⟨-1, 0, 0⟩⟩ 1 (by decide)

theorem nbOf_zero_dir (r : Ray) (hdir : r.direction = ⟨0, 0, 0⟩) (w : Row) :
    nbOf r w = 0 := by
  simp [nbOf, Vec3.dot, coOf, Vec3.sub, hdir]

/-- Claim C6 (amended): `hit` returns `none` when `t_min ≥ t_max`, and for a
zero-direction ray provided the origin is on or outside every sphere.  (A
zero-direction ray whose origin is strictly inside some sphere does hit: the
discriminant `r² − |centre − origin|²` is then positive - see the
counterexample.) -/
theorem hit_degenerate_none (sse41 : Bool) (sq : ℚ → ℚ) (spheres : List Sphere)
    (r : Ray) (t_min t_max : ℚ)
    (hdeg : t_max ≤ t_min ∨
      (r.direction = ⟨0, 0, 0⟩ ∧ ∀ sp ∈ spheres,
        sp.radius * sp.radius ≤
          Vec3.dot (Vec3.sub r.origin sp.centre) (Vec3.sub r.origin sp.centre))) :
    SpheresSoA.hit sse41 sq (SpheresSoA.new spheres) r t_min t_max = none := by
  have hr := length_rows_new spheres
  have h4 : (SpheresSoA.new spheres).len % 4 = 0 := by
    rw [len_new]
    exact align_to_mod _
  rcases hdeg with hle | ⟨hdir, hout⟩
  · cases sse41
    · rcases hit_scalar_master sq (SpheresSoA.new spheres) r t_min t_max hr with
        ⟨hnone, _⟩ | ⟨i, _, hok, hlt, _, _, _⟩
      · simpa [SpheresSoA.hit] using hnone
      · exact absurd (lt_of_lt_of_le (lt_trans hok.2 hlt) hle) (lt_irrefl _)
    · rcases hit_sse4_1_master sq (SpheresSoA.new spheres) r t_min t_max hr h4 with
        ⟨hnone, _⟩ | ⟨i, _, hok, hlt, _, _, _⟩
      · simpa [SpheresSoA.hit] using hnone
      · exact absurd (lt_of_lt_of_le (lt_trans hok.2 hlt) hle) (lt_irrefl _)
  · have hdisc : ∀ k, k < (SpheresSoA.new spheres).len →
        discOf r ((SpheresSoA.new spheres).rows.getD k d0) ≤ 0 := by
      intro k hk
      by_cases hkn : k < spheres.length
      · rw [rows_new_getD_lt spheres k hkn]
        have hsp := getD_mem_of_lt spheres ⟨⟨0, 0, 0⟩, 0⟩ k hkn
        have hb := hout _ hsp
        have hnb := nbOf_zero_dir r hdir (rowOf (spheres.getD k ⟨⟨0, 0, 0⟩, 0⟩))
        unfold discOf cOf
        rw [hnb]
        unfold rowOf coOf Vec3.sub Vec3.dot at *
        dsimp only at *
        nlinarith [hb]
      · rw [rows_new_getD_sentinel spheres k (by omega)
          (by rw [len_new] at hk; exact hk)]
        have hnb := nbOf_zero_dir r hdir sentinel
        unfold discOf cOf
        rw [hnb]
        unfold sentinel coOf Vec3.sub Vec3.dot
        dsimp only
        have h1 := mul_self_nonneg (f32MAX - r.origin.x)
        have h2 := mul_self_nonneg (f32MAX - r.origin.y)
        have h3 := mul_self_nonneg (f32MAX - r.origin.z)
        nlinarith [h1, h2, h3]
    cases sse41
    · rcases hit_scalar_master sq (SpheresSoA.new spheres) r t_min t_max hr with
        ⟨hnone, _⟩ | ⟨i, hi, hok, _, _, _, _⟩
      · simpa [SpheresSoA.hit] using hnone
      · exact absurd hok.1 (not_lt.mpr (hdisc i hi))
    · rcases hit_sse4_1_master sq (SpheresSoA.new spheres) r t_min t_max hr h4 with
        ⟨hnone, _⟩ | ⟨i, hi, hok, _, _, _, _⟩
      · simpa [SpheresSoA.hit] using hnone
      · exact absurd hok.1 (not_lt.mpr (hdisc i hi))

theorem hit_degenerate_none_witness :
    SpheresSoA.hit true (fun _ => 0) (SpheresSoA.new [⟨⟨0, 0, 0⟩, 1⟩])
      ⟨⟨0, 0, 0⟩, ⟨1, 0, 0⟩⟩ 5 1 = none :=
  hit_degenerate_none true (fun _ => 0) [⟨⟨0, 0, 0⟩, 1⟩] ⟨⟨0, 0, 0⟩, ⟨1, 0, 0⟩⟩
    5 1 (Or.inl (by norm_num))

/-- Claim C6 counterexample: a zero-direction ray whose origin lies strictly
inside a sphere is reported as a hit by both kernels (the code's
discriminant is `r² − |centre − origin|² = 1 > 0` and the farther "root"
`t = 1` falls inside `(t_min, t_max)`), so `hit` does not return `none` for
every zero-direction ray. -/
theorem zero_direction_ray_hits :
    SpheresSoA.hit false (fun x => if x = 1 then 1 else 0)
      (SpheresSoA.new [⟨⟨0, 0, 0⟩, 1⟩]) ⟨⟨0, 0, 0⟩, ⟨0, 0, 0⟩⟩ (1/1000) 100 =
      some (⟨⟨0, 0, 0⟩, ⟨0, 0, 0⟩⟩, 0) ∧
    SpheresSoA.hit true (fun x => if x = 1 then 1 else 0)
      (SpheresSoA.new [⟨⟨0, 0, 0⟩, 1⟩]) ⟨⟨0, 0, 0⟩, ⟨0, 0, 0⟩⟩ (1/1000) 100 =
      some (⟨⟨0, 0, 0⟩, ⟨0, 0, 0⟩⟩, 0) := by
  constructor
  · decide
  · decide

theorem getD_map_radius_inv (l : List Sphere) (i : ℕ) (hi : i < l.length) :
    (l.map fun s => 1 / s.radius).getD i 0 =
      1 / (l.getD i ⟨⟨0, 0, 0⟩, 0⟩).radius := by
  induction l generalizing i with
  | nil => simp at hi
  | cons sp rest ih =>
    cases i with
    | zero => simp
    | succ i =>
      simp only [List.map_cons, List.getD_cons_succ]
      exact ih i (by simpa using hi)

/-- Claim C5 (amended): `SpheresSoA::new` performs no validation at all: for
every input list - radii ≤ 0 included - it builds the padded store, blindly
storing `radius_inv = 1/radius`; nothing rejects the store. -/
theorem new_no_validation (spheres : List Sphere) (i : ℕ)
    (hi : i < spheres.length) :
    (SpheresSoA.new spheres).num_spheres = spheres.length ∧
    (SpheresSoA.new spheres).len = align_to spheres.length 4 ∧
    (SpheresSoA.new spheres).radius_inv.getD i 0 =
      1 / (spheres.getD i ⟨⟨0, 0, 0⟩, 0⟩).radius := by
  refine ⟨rfl, rfl, ?_⟩
  show ((spheres.map fun s : Sphere => 1 / s.radius) ++
      List.replicate (align_to spheres.length 4 - spheres.length) 0).getD i 0 = _
  rw [List.getD_append _ _ _ _ (by simpa using hi)]
  exact getD_map_radius_inv spheres i hi

theorem new_no_validation_witness :
    (SpheresSoA.new [⟨⟨0, 0, 0⟩, -1⟩]).num_spheres = 1 ∧
    (SpheresSoA.new [⟨⟨0, 0, 0⟩, -1⟩]).len = align_to 1 4 ∧
    (SpheresSoA.new [⟨⟨0, 0, 0⟩, -1⟩]).radius_inv.getD 0 0 =
      1 / (([⟨⟨0, 0, 0⟩, -1⟩] : List Sphere).getD 0 ⟨⟨0, 0, 0⟩, 0⟩).radius :=
  new_no_validation [⟨⟨0, 0, 0⟩, -1⟩] 0 (by decide)

/-- Claim C5 counterexample: `new` accepts a sphere of radius −1 and
constructs the complete store - `num_spheres = 1`, all arrays populated,
`radius_inv = 1/(−1) = −1` - instead of validating the radius and rejecting
the store. -/
theorem new_accepts_nonpositive_radius :
    (SpheresSoA.new [⟨⟨0, 0, 0⟩, -1⟩]).num_spheres = 1 ∧
    (SpheresSoA.new [⟨⟨0, 0, 0⟩, -1⟩]).len = 4 ∧
    (SpheresSoA.new [⟨⟨0, 0, 0⟩, -1⟩]).radius_inv = [-1, 0, 0, 0] ∧
    (SpheresSoA.new [⟨⟨0, 0, 0⟩, -1⟩]).radius_sq = [1, 0, 0, 0] := by
  refine ⟨rfl, rfl, by decide, by decide⟩

theorem getD_replicate {α : Type} (p k : ℕ) (x d : α) (h : k < p) :
    (List.replicate p x).getD k d = x := by
  induction p generalizing k with
  | zero => omega
  | succ p ih =>
    cases k with
    | zero => simp [List.replicate_succ]
    | succ k =>
      simp only [List.replicate_succ, List.getD_cons_succ]
      exact ih k (by omega)

theorem get?_eq_some_getD {α : Type} (l : List α) (d : α) (i : ℕ)
    (h : i < l.length) : l.get? i = some (l.getD i d) := by
  induction l generalizing i with
  | nil => simp at h
  | cons a rest ih =>
    cases i with
    | zero => simp
    | succ i =>
      simp only [List.get?_cons_succ, List.getD_cons_succ]
      exact ih i (by simpa using h)

theorem length_radius_sq_new (spheres : List Sphere) :
    (SpheresSoA.new spheres).radius_sq.length = (SpheresSoA.new spheres).len := by
  show ((spheres.map fun s : Sphere => s.radius * s.radius) ++
      List.replicate (align_to spheres.length 4 - spheres.length) 0).length =
    align_to spheres.length 4
  have := align_to_ge spheres.length
  simp only [List.length_append, List.length_map, List.length_replicate]
  omega

/-- Claim C9: the read accessors are bounded by the padded count, not the
logical count: a sentinel index returns centre `(MAX, MAX, MAX)` and squared
radius 0, and any index at or beyond the padded count panics (modelled as
`none`) in both accessors. -/
theorem accessors_bounded_by_padding (spheres : List Sphere) (i : ℕ) :
    ((SpheresSoA.new spheres).num_spheres ≤ i →
      i < (SpheresSoA.new spheres).len →
      (SpheresSoA.new spheres).centre i = some ⟨f32MAX, f32MAX, f32MAX⟩ ∧
        (SpheresSoA.new spheres).radius_sq_at i = some 0) ∧
    ((SpheresSoA.new spheres).len ≤ i →
      (SpheresSoA.new spheres).centre i = none ∧
        (SpheresSoA.new spheres).radius_sq_at i = none) := by
  have hn : (SpheresSoA.new spheres).num_spheres = spheres.length := rfl
  constructor
  · intro h1 h2
    rw [hn] at h1
    have h2' : i < align_to spheres.length 4 := by rw [len_new] at h2; exact h2
    have hrep : i - spheres.length <
        align_to spheres.length 4 - spheres.length := by omega
    constructor
    · unfold SpheresSoA.centre
      rw [if_pos h2]
      have hx : (SpheresSoA.new spheres).centre_x.getD i 0 = f32MAX := by
        show ((spheres.map fun s : Sphere => s.centre.x) ++
          List.replicate (align_to spheres.length 4 - spheres.length) f32MAX).getD i 0 = _
        rw [List.getD_append_right _ _ _ _ (by simpa using h1)]
        exact getD_replicate _ _ _ _ (by simpa using hrep)
      have hy : (SpheresSoA.new spheres).centre_y.getD i 0 = f32MAX := by
        show ((spheres.map fun s : Sphere => s.centre.y) ++
          List.replicate (align_to spheres.length 4 - spheres.length) f32MAX).getD i 0 = _
        rw [List.getD_append_right _ _ _ _ (by simpa using h1)]
        exact getD_replicate _ _ _ _ (by simpa using hrep)
      have hz : (SpheresSoA.new spheres).centre_z.getD i 0 = f32MAX := by
        show ((spheres.map fun s : Sphere => s.centre.z) ++
          List.replicate (align_to spheres.length 4 - spheres.length) f32MAX).getD i 0 = _
        rw [List.getD_append_right _ _ _ _ (by simpa using h1)]
        exact getD_replicate _ _ _ _ (by simpa using hrep)
      rw [hx, hy, hz]
    · unfold SpheresSoA.radius_sq_at
      rw [get?_eq_some_getD _ (0 : ℚ) i (by rw [length_radius_sq_new]; omega)]
      have hv : (SpheresSoA.new spheres).radius_sq.getD i 0 = 0 := by
        show ((spheres.map fun s : Sphere => s.radius * s.radius) ++
          List.replicate (align_to spheres.length 4 - spheres.length) 0).getD i 0 = _
        rw [List.getD_append_right _ _ _ _ (by simpa using h1)]
        exact getD_replicate _ _ _ _ (by simpa using hrep)
      rw [hv]
  · intro h1
    constructor
    · unfold SpheresSoA.centre
      rw [if_neg (by omega)]
    · unfold SpheresSoA.radius_sq_at
      rw [List.get?_eq_none]
      rw [length_radius_sq_new]
      exact h1

theorem accessors_bounded_by_padding_witness :
    ((SpheresSoA.new [⟨⟨0, 0, -1⟩, 1/2⟩]).centre 2 =
        some ⟨f32MAX, f32MAX, f32MAX⟩ ∧
      (SpheresSoA.new [⟨⟨0, 0, -1⟩, 1/2⟩]).radius_sq_at 2 = some 0) ∧
    ((SpheresSoA.new [⟨⟨0, 0, -1⟩, 1/2⟩]).centre 5 = none ∧
      (SpheresSoA.new [⟨⟨0, 0, -1⟩, 1/2⟩]).radius_sq_at 5 = none) :=
  ⟨(accessors_bounded_by_padding [⟨⟨0, 0, -1⟩, 1/2⟩] 2).1 (by decide) (by decide),
   (accessors_bounded_by_padding [⟨⟨0, 0, -1⟩, 1/2⟩] 5).2 (by decide)⟩

/-- Quadratic-root algebra: if `t` is either root `nb ± S` with `S² = D` the
code's discriminant, and the direction is unit length, the evaluated point
lies exactly on the sphere. -/
theorem surface_sq (o d cv : Vec3) (rad S D nb t : ℚ)
    (hnb : nb = Vec3.dot (Vec3.sub cv o) d)
    (hD : D = nb * nb - (Vec3.dot (Vec3.sub cv o) (Vec3.sub cv o) - rad * rad))
    (hS : S * S = D)
    (hd : Vec3.dot d d = 1)
    (ht : t = nb - S ∨ t = nb + S) :
    Vec3.dot (Vec3.sub (Vec3.add o (Vec3.smul t d)) cv)
        (Vec3.sub (Vec3.add o (Vec3.smul t d)) cv) = rad * rad := by
  unfold Vec3.dot Vec3.sub Vec3.add Vec3.smul at *
  dsimp only at *
  rcases ht with ht | ht
  · subst ht
    linear_combination hS + (nb - S) ^ 2 * hd + 2 * (nb - S) * hnb + hD
  · subst ht
    linear_combination hS + (nb + S) ^ 2 * hd + 2 * (nb + S) * hnb + hD

/-- Claim C8 (amended): the surface property holds only for unit-length
directions: the kernels' quadratic omits the `|direction|²` coefficient, so
when `|direction|² = 1` and the oracle returns the exact square root of each
positive discriminant, every hit on a real sphere satisfies
`|point − centre|² = radius²` exactly.  For unnormalized directions the
returned point is generally off the sphere - see the counterexample. -/
theorem hit_point_on_sphere (sq : ℚ → ℚ) (spheres : List Sphere) (r : Ray)
    (t_min t_max : ℚ) (h : RayHit) (i : ℕ)
    (hs : hit_scalar sq (SpheresSoA.new spheres) r t_min t_max = some (h, i))
    (hunit : Vec3.dot r.direction r.direction = 1)
    (hin : i < spheres.length)
    (hsq : ∀ k, k < (SpheresSoA.new spheres).len →
      0 < discOf r ((SpheresSoA.new spheres).rows.getD k d0) →
      sq (discOf r ((SpheresSoA.new spheres).rows.getD k d0)) *
          sq (discOf r ((SpheresSoA.new spheres).rows.getD k d0)) =
        discOf r ((SpheresSoA.new spheres).rows.getD k d0)) :
    Vec3.dot (Vec3.sub h.point (spheres.getD i ⟨⟨0, 0, 0⟩, 0⟩).centre)
        (Vec3.sub h.point (spheres.getD i ⟨⟨0, 0, 0⟩, 0⟩).centre) =
      (spheres.getD i ⟨⟨0, 0, 0⟩, 0⟩).radius *
        (spheres.getD i ⟨⟨0, 0, 0⟩, 0⟩).radius := by
  have hr := length_rows_new spheres
  rcases hit_scalar_master sq (SpheresSoA.new spheres) r t_min t_max hr with
    ⟨hnone, _⟩ | ⟨j, hj, hok, hlt, hsome, _, _⟩
  · rw [hnone] at hs
    exact absurd hs (by simp)
  · rw [hsome] at hs
    have hpair := Option.some.inj hs
    have hh : hitPoint (SpheresSoA.new spheres) r
        (tScal sq r t_min ((SpheresSoA.new spheres).rows.getD j d0)) j = h :=
      congrArg Prod.fst hpair
    have hji : j = i := congrArg Prod.snd hpair
    subst hji
    rw [← hh]
    have hrow := rows_new_getD_lt spheres j hin
    have hsq' := hsq j hj hok.1
    rw [hrow] at hsq' ⊢
    have ht : tScal sq r t_min (rowOf (spheres.getD j ⟨⟨0, 0, 0⟩, 0⟩)) =
        nbOf r (rowOf (spheres.getD j ⟨⟨0, 0, 0⟩, 0⟩)) -
          sq (discOf r (rowOf (spheres.getD j ⟨⟨0, 0, 0⟩, 0⟩))) ∨
        tScal sq r t_min (rowOf (spheres.getD j ⟨⟨0, 0, 0⟩, 0⟩)) =
        nbOf r (rowOf (spheres.getD j ⟨⟨0, 0, 0⟩, 0⟩)) +
          sq (discOf r (rowOf (spheres.getD j ⟨⟨0, 0, 0⟩, 0⟩))) := by
      unfold tScal
      by_cases hc : nbOf r (rowOf (spheres.getD j ⟨⟨0, 0, 0⟩, 0⟩)) -
          sq (discOf r (rowOf (spheres.getD j ⟨⟨0, 0, 0⟩, 0⟩))) < t_min
      · right
        rw [if_pos hc]
      · left
        rw [if_neg hc]
    show Vec3.dot
        (Vec3.sub (Vec3.add r.origin (Vec3.smul
          (tScal sq r t_min (rowOf (spheres.getD j ⟨⟨0, 0, 0⟩, 0⟩))) r.direction))
          (spheres.getD j ⟨⟨0, 0, 0⟩, 0⟩).centre)
        (Vec3.sub (Vec3.add r.origin (Vec3.smul
          (tScal sq r t_min (rowOf (spheres.getD j ⟨⟨0, 0, 0⟩, 0⟩))) r.direction))
          (spheres.getD j ⟨⟨0, 0, 0⟩, 0⟩).centre) = _
    exact surface_sq r.origin r.direction (spheres.getD j ⟨⟨0, 0, 0⟩, 0⟩).centre
      (spheres.getD j ⟨⟨0, 0, 0⟩, 0⟩).radius
      (sq (discOf r (rowOf (spheres.getD j ⟨⟨0, 0, 0⟩, 0⟩))))
      (discOf r (rowOf (spheres.getD j ⟨⟨0, 0, 0⟩, 0⟩)))
      (nbOf r (rowOf (spheres.getD j ⟨⟨0, 0, 0⟩, 0⟩))) _ rfl rfl hsq' hunit ht

theorem hit_point_on_sphere_witness :
    Vec3.dot (Vec3.sub (⟨⟨0, 0, -1/2⟩, ⟨0, 0, 1⟩⟩ : RayHit).point
        (([⟨⟨0, 0, -1⟩, 1/2⟩] : List Sphere).getD 0 ⟨⟨0, 0, 0⟩, 0⟩).centre)
      (Vec3.sub (⟨⟨0, 0, -1/2⟩, ⟨0, 0, 1⟩⟩ : RayHit).point
        (([⟨⟨0, 0, -1⟩, 1/2⟩] : List Sphere).getD 0 ⟨⟨0, 0, 0⟩, 0⟩).centre) =
      (([⟨⟨0, 0, -1⟩, 1/2⟩] : List Sphere).getD 0 ⟨⟨0, 0, 0⟩, 0⟩).radius *
        (([⟨⟨0, 0, -1⟩, 1/2⟩] : List Sphere).getD 0 ⟨⟨0, 0, 0⟩, 0⟩).radius :=
  hit_point_on_sphere (fun x => if x = 1/4 then 1/2 else 0) [⟨⟨0, 0, -1⟩, 1/2⟩]
    ⟨⟨0, 0, 0⟩, ⟨0, 0, -1⟩⟩ (1/1000) 100 ⟨⟨0, 0, -1/2⟩, ⟨0, 0, 1⟩⟩ 0
    (by decide) (by decide) (by decide) (by decide)

/-- Claim C8 counterexample: with the unnormalized direction `(2,0,0)` the
scalar kernel reports a hit on the unit sphere at origin whose point
`(7,0,0)` has squared distance 49 from the centre - nowhere near `r = 1`,
far outside a `1e-4` relative tolerance.  (All values involved are exactly
representable in f32, so the real kernel returns the same point.) -/
theorem hit_point_off_sphere :
    hit_scalar (fun x => if x = 4 then 2 else 0) (SpheresSoA.new [⟨⟨0, 0, 0⟩, 1⟩])
      ⟨⟨-1, 0, 0⟩, ⟨2, 0, 0⟩⟩ (1/1000) 100 = some (⟨⟨7, 0, 0⟩, ⟨7, 0, 0⟩⟩, 0) ∧
    Vec3.dot (Vec3.sub ⟨7, 0, 0⟩ ⟨0, 0, 0⟩) (Vec3.sub ⟨7, 0, 0⟩ ⟨0, 0, 0⟩) = 49 ∧
    ¬((1 - 1/10000 : ℚ) * (1 - 1/10000) ≤ 49 ∧
      (49 : ℚ) ≤ (1 + 1/10000) * (1 + 1/10000)) := by
  refine ⟨by decide, by decide, by decide⟩

/-- Claim C4 (amended): the vector kernel's extraction takes, among the
lanes sharing the minimal `best_t`, the lowest *lane* (cttz of the equality
mask), and within that lane the earliest group: the winner is the qualifying
minimal-`t` row minimizing `(index mod 4, index div 4)` lexicographically,
which is the lowest sphere index only when all tied candidates sit in the
same lane - not in general (see the counterexample). -/
theorem hit_sse4_1_tie_break (sq : ℚ → ℚ) (spheres : List Sphere) (r : Ray)
    (t_min t_max : ℚ) (h : RayHit) (i : ℕ)
    (hs : hit_sse4_1 sq (SpheresSoA.new spheres) r t_min t_max = some (h, i)) :
    i < (SpheresSoA.new spheres).len ∧
    qualSseAt sq r t_min t_max (SpheresSoA.new spheres) i ∧
    (∀ k, k < (SpheresSoA.new spheres).len →
      qualSseAt sq r t_min t_max (SpheresSoA.new spheres) k →
      tSse sq r t_min ((SpheresSoA.new spheres).rows.getD i d0) ≤
        tSse sq r t_min ((SpheresSoA.new spheres).rows.getD k d0)) ∧
    (∀ k, k < (SpheresSoA.new spheres).len →
      qualSseAt sq r t_min t_max (SpheresSoA.new spheres) k →
      tSse sq r t_min ((SpheresSoA.new spheres).rows.getD k d0) =
        tSse sq r t_min ((SpheresSoA.new spheres).rows.getD i d0) →
      i % 4 ≤ k % 4 ∧ (i % 4 = k % 4 → i ≤ k)) := by
  have hr := length_rows_new spheres
  have h4 : (SpheresSoA.new spheres).len % 4 = 0 := by
    rw [len_new]
    exact align_to_mod _
  rcases hit_sse4_1_master sq (SpheresSoA.new spheres) r t_min t_max hr h4 with
    ⟨hnone, _⟩ | ⟨j, hj, hok, hlt, hsome, hminim, htie⟩
  · rw [hnone] at hs
    exact absurd hs (by simp)
  · rw [hsome] at hs
    have hpair := Option.some.inj hs
    have hji : j = i := congrArg Prod.snd hpair
    subst hji
    exact ⟨hj, ⟨hok, hlt⟩, fun k hk hq => hminim k hk hq.1,
      fun k hk hq ht => htie k hk hq.1 ht⟩

theorem hit_sse4_1_tie_break_witness :
    (4 : ℕ) < (SpheresSoA.new [⟨⟨0, 5, 0⟩, 1⟩, ⟨⟨3, 0, 0⟩, 1⟩, ⟨⟨0, 5, 0⟩, 1⟩,
        ⟨⟨0, 5, 0⟩, 1⟩, ⟨⟨3, 0, 0⟩, 1⟩]).len ∧
    qualSseAt (fun x => if x = 1 then 1 else 0) ⟨⟨0, 0, 0⟩, ⟨1, 0, 0⟩⟩ (1/1000)
      100 (SpheresSoA.new [⟨⟨0, 5, 0⟩, 1⟩, ⟨⟨3, 0, 0⟩, 1⟩, ⟨⟨0, 5, 0⟩, 1⟩,
        ⟨⟨0, 5, 0⟩, 1⟩, ⟨⟨3, 0, 0⟩, 1⟩]) 4 ∧
    (∀ k, k < (SpheresSoA.new [⟨⟨0, 5, 0⟩, 1⟩, ⟨⟨3, 0, 0⟩, 1⟩, ⟨⟨0, 5, 0⟩, 1⟩,
        ⟨⟨0, 5, 0⟩, 1⟩, ⟨⟨3, 0, 0⟩, 1⟩]).len →
      qualSseAt (fun x => if x = 1 then 1 else 0) ⟨⟨0, 0, 0⟩, ⟨1, 0, 0⟩⟩ (1/1000)
        100 (SpheresSoA.new [⟨⟨0, 5, 0⟩, 1⟩, ⟨⟨3, 0, 0⟩, 1⟩, ⟨⟨0, 5, 0⟩, 1⟩,
          ⟨⟨0, 5, 0⟩, 1⟩, ⟨⟨3, 0, 0⟩, 1⟩]) k →
      tSse (fun x => if x = 1 then 1 else 0) ⟨⟨0, 0, 0⟩, ⟨1, 0, 0⟩⟩ (1/1000)
          ((SpheresSoA.new [⟨⟨0, 5, 0⟩, 1⟩, ⟨⟨3, 0, 0⟩, 1⟩, ⟨⟨0, 5, 0⟩, 1⟩,
            ⟨⟨0, 5, 0⟩, 1⟩, ⟨⟨3, 0, 0⟩, 1⟩]).rows.getD 4 d0) ≤
        tSse (fun x => if x = 1 then 1 else 0) ⟨⟨0, 0, 0⟩, ⟨1, 0, 0⟩⟩ (1/1000)
          ((SpheresSoA.new [⟨⟨0, 5, 0⟩, 1⟩, ⟨⟨3, 0, 0⟩, 1⟩, ⟨⟨0, 5, 0⟩, 1⟩,
            ⟨⟨0, 5, 0⟩, 1⟩, ⟨⟨3, 0, 0⟩, 1⟩]).rows.getD k d0)) ∧
    (∀ k, k < (SpheresSoA.new [⟨⟨0, 5, 0⟩, 1⟩, ⟨⟨3, 0, 0⟩, 1⟩, ⟨⟨0, 5, 0⟩, 1⟩,
        ⟨⟨0, 5, 0⟩, 1⟩, ⟨⟨3, 0, 0⟩, 1⟩]).len →
      qualSseAt (fun x => if x = 1 then 1 else 0) ⟨⟨0, 0, 0⟩, ⟨1, 0, 0⟩⟩ (1/1000)
        100 (SpheresSoA.new [⟨⟨0, 5, 0⟩, 1⟩, ⟨⟨3, 0, 0⟩, 1⟩, ⟨⟨0, 5, 0⟩, 1⟩,
          ⟨⟨0, 5, 0⟩, 1⟩, ⟨⟨3, 0, 0⟩, 1⟩]) k →
      tSse (fun x => if x = 1 then 1 else 0) ⟨⟨0, 0, 0⟩, ⟨1, 0, 0⟩⟩ (1/1000)
          ((SpheresSoA.new [⟨⟨0, 5, 0⟩, 1⟩, ⟨⟨3, 0, 0⟩, 1⟩, ⟨⟨0, 5, 0⟩, 1⟩,
            ⟨⟨0, 5, 0⟩, 1⟩, ⟨⟨3, 0, 0⟩, 1⟩]).rows.getD k d0) =
        tSse (fun x => if x = 1 then 1 else 0) ⟨⟨0, 0, 0⟩, ⟨1, 0, 0⟩⟩ (1/1000)
          ((SpheresSoA.new [⟨⟨0, 5, 0⟩, 1⟩, ⟨⟨3, 0, 0⟩, 1⟩, ⟨⟨0, 5, 0⟩, 1⟩,
            ⟨⟨0, 5, 0⟩, 1⟩, ⟨⟨3, 0, 0⟩, 1⟩]).rows.getD 4 d0) →
      4 % 4 ≤ k % 4 ∧ (4 % 4 = k % 4 → 4 ≤ k)) :=
  hit_sse4_1_tie_break (fun x => if x = 1 then 1 else 0)
    [⟨⟨0, 5, 0⟩, 1⟩, ⟨⟨3, 0, 0⟩, 1⟩, ⟨⟨0, 5, 0⟩, 1⟩, ⟨⟨0, 5, 0⟩, 1⟩,
      ⟨⟨3, 0, 0⟩, 1⟩] ⟨⟨0, 0, 0⟩, ⟨1, 0, 0⟩⟩ (1/1000) 100
    ⟨⟨2, 0, 0⟩, ⟨-1, 0, 0⟩⟩ 4 (by decide)

/-- Claim C4 counterexample: spheres 1 and 4 are identical, and a ray hits
both at `t = 2`.  The scalar scan's first-wins policy would return index 1,
but the vector kernel holds sphere 4 in lane 0 and sphere 1 in lane 1;
cttz picks the lowest *lane*, so index 4 is returned even though the tied
candidate with index 1 is earlier in scalar order. -/
theorem hit_sse4_1_tie_prefers_lane :
    hit_sse4_1 (fun x => if x = 1 then 1 else 0)
      (SpheresSoA.new [⟨⟨0, 5, 0⟩, 1⟩, ⟨⟨3, 0, 0⟩, 1⟩, ⟨⟨0, 5, 0⟩, 1⟩,
        ⟨⟨0, 5, 0⟩, 1⟩, ⟨⟨3, 0, 0⟩, 1⟩])
      ⟨⟨0, 0, 0⟩, ⟨1, 0, 0⟩⟩ (1/1000) 100 = some (⟨⟨2, 0, 0⟩, ⟨-1, 0, 0⟩⟩, 4) ∧
    qualSseAt (fun x => if x = 1 then 1 else 0) ⟨⟨0, 0, 0⟩, ⟨1, 0, 0⟩⟩ (1/1000)
      100 (SpheresSoA.new [⟨⟨0, 5, 0⟩, 1⟩, ⟨⟨3, 0, 0⟩, 1⟩, ⟨⟨0, 5, 0⟩, 1⟩,
        ⟨⟨0, 5, 0⟩, 1⟩, ⟨⟨3, 0, 0⟩, 1⟩]) 1 ∧
    tSse (fun x => if x = 1 then 1 else 0) ⟨⟨0, 0, 0⟩, ⟨1, 0, 0⟩⟩ (1/1000)
        ((SpheresSoA.new [⟨⟨0, 5, 0⟩, 1⟩, ⟨⟨3, 0, 0⟩, 1⟩, ⟨⟨0, 5, 0⟩, 1⟩,
          ⟨⟨0, 5, 0⟩, 1⟩, ⟨⟨3, 0, 0⟩, 1⟩]).rows.getD 1 d0) =
      tSse (fun x => if x = 1 then 1 else 0) ⟨⟨0, 0, 0⟩, ⟨1, 0, 0⟩⟩ (1/1000)
        ((SpheresSoA.new [⟨⟨0, 5, 0⟩, 1⟩, ⟨⟨3, 0, 0⟩, 1⟩, ⟨⟨0, 5, 0⟩, 1⟩,
          ⟨⟨0, 5, 0⟩, 1⟩, ⟨⟨3, 0, 0⟩, 1⟩]).rows.getD 4 d0) ∧
    ¬((4 : ℕ) ≤ 1) := by
  refine ⟨by decide, by decide, by decide, by decide⟩

/-- The two root-selection rules agree whenever the nearer root does not
land exactly on `t_min`. -/
theorem tScal_eq_tSse (sq : ℚ → ℚ) (r : Ray) (t_min : ℚ) (w : Row)
    (hne : nbOf r w - sq (discOf r w) ≠ t_min) :
    tScal sq r t_min w = tSse sq r t_min w := by
  unfold tScal tSse
  rcases lt_trichotomy (nbOf r w - sq (discOf r w)) t_min with hlt | heq | hgt
  · rw [if_pos hlt, if_neg (not_lt.mpr (le_of_lt hlt))]
  · exact absurd heq hne
  · rw [if_neg (not_lt.mpr (le_of_lt hgt)), if_pos hgt]

/-- Claim C1 (amended): the two kernels return identical results - and the
`hit` dispatch is therefore kernel-agnostic - provided (H1) no sphere's
nearer root lands exactly on `t_min` (there the scalar kernel discards the
sphere while the vector kernel tries the farther root - see the
counterexample) and (H2) no two spheres produce the same qualifying
candidate `t` (cross-lane ties are resolved by lane, not by sphere index -
see claim C4's counterexample).  In exact arithmetic the agreement is exact
equality, not merely within epsilon. -/
theorem kernels_agree (sq : ℚ → ℚ) (spheres : List Sphere) (r : Ray)
    (t_min t_max : ℚ)
    (H1 : ∀ k, k < (SpheresSoA.new spheres).len →
      0 < discOf r ((SpheresSoA.new spheres).rows.getD k d0) →
      nbOf r ((SpheresSoA.new spheres).rows.getD k d0) -
        sq (discOf r ((SpheresSoA.new spheres).rows.getD k d0)) ≠ t_min)
    (H2 : ∀ m, m < (SpheresSoA.new spheres).len →
      ∀ k, k < (SpheresSoA.new spheres).len →
      qualScalAt sq r t_min t_max (SpheresSoA.new spheres) m →
      qualScalAt sq r t_min t_max (SpheresSoA.new spheres) k →
      tScal sq r t_min ((SpheresSoA.new spheres).rows.getD m d0) =
        tScal sq r t_min ((SpheresSoA.new spheres).rows.getD k d0) → m = k) :
    hit_sse4_1 sq (SpheresSoA.new spheres) r t_min t_max =
      hit_scalar sq (SpheresSoA.new spheres) r t_min t_max ∧
    ∀ b1 b2 : Bool,
      SpheresSoA.hit b1 sq (SpheresSoA.new spheres) r t_min t_max =
        SpheresSoA.hit b2 sq (SpheresSoA.new spheres) r t_min t_max := by
  have hr := length_rows_new spheres
  have h4 : (SpheresSoA.new spheres).len % 4 = 0 := by
    rw [len_new]
    exact align_to_mod _
  have hts : ∀ k, k < (SpheresSoA.new spheres).len →
      0 < discOf r ((SpheresSoA.new spheres).rows.getD k d0) →
      tScal sq r t_min ((SpheresSoA.new spheres).rows.getD k d0) =
        tSse sq r t_min ((SpheresSoA.new spheres).rows.getD k d0) :=
    fun k hk hd => tScal_eq_tSse sq r t_min _ (H1 k hk hd)
  have hok : ∀ k, k < (SpheresSoA.new spheres).len →
      (okScal sq r t_min ((SpheresSoA.new spheres).rows.getD k d0) ↔
        okSse sq r t_min ((SpheresSoA.new spheres).rows.getD k d0)) := by
    intro k hk
    unfold okScal okSse
    constructor
    · intro hc
      exact ⟨hc.1, by rw [← hts k hk hc.1]; exact hc.2⟩
    · intro hc
      exact ⟨hc.1, by rw [hts k hk hc.1]; exact hc.2⟩
  have hmain : hit_sse4_1 sq (SpheresSoA.new spheres) r t_min t_max =
      hit_scalar sq (SpheresSoA.new spheres) r t_min t_max := by
    rcases hit_scalar_master sq (SpheresSoA.new spheres) r t_min t_max hr with
      ⟨hnoneS, hfailS⟩ | ⟨is, his, hokS, hltS, hsomeS, hminS, hstrS⟩
    · rcases hit_sse4_1_master sq (SpheresSoA.new spheres) r t_min t_max hr h4 with
        ⟨hnoneV, _⟩ | ⟨iv, hiv, hokV, hltV, hsomeV, _, _⟩
      · rw [hnoneS, hnoneV]
      · exfalso
        refine hfailS iv hiv ⟨⟨hokV.1, ?_⟩, ?_⟩
        · rw [hts iv hiv hokV.1]
          exact hokV.2
        · rw [hts iv hiv hokV.1]
          exact hltV
    · rcases hit_sse4_1_master sq (SpheresSoA.new spheres) r t_min t_max hr h4 with
        ⟨hnoneV, hfailV⟩ | ⟨iv, hiv, hokV, hltV, hsomeV, hminV, _⟩
      · exfalso
        refine hfailV is his ⟨⟨hokS.1, ?_⟩, ?_⟩
        · rw [← hts is his hokS.1]
          exact hokS.2
        · rw [← hts is his hokS.1]
          exact hltS
      · -- both report a hit: the winners coincide
        have hqV : qualScalAt sq r t_min t_max (SpheresSoA.new spheres) iv :=
          ⟨(hok iv hiv).mpr ⟨hokV.1, hokV.2⟩, by rw [hts iv hiv hokV.1]; exact hltV⟩
        have hqS : qualScalAt sq r t_min t_max (SpheresSoA.new spheres) is :=
          ⟨⟨hokS.1, hokS.2⟩, hltS⟩
        have h1 : tScal sq r t_min ((SpheresSoA.new spheres).rows.getD is d0) ≤
            tScal sq r t_min ((SpheresSoA.new spheres).rows.getD iv d0) :=
          hminS iv hiv hqV.1
        have h2 : tSse sq r t_min ((SpheresSoA.new spheres).rows.getD iv d0) ≤
            tSse sq r t_min ((SpheresSoA.new spheres).rows.getD is d0) :=
          hminV is his ((hok is his).mp hqS.1)
        rw [← hts iv hiv hokV.1, ← hts is his hokS.1] at h2
        have hteq : tScal sq r t_min ((SpheresSoA.new spheres).rows.getD is d0) =
            tScal sq r t_min ((SpheresSoA.new spheres).rows.getD iv d0) :=
          le_antisymm h1 h2
        have hieq : is = iv := H2 is his iv hiv hqS hqV hteq
        subst hieq
        rw [hsomeS, hsomeV, ← hts is his hokS.1]
  refine ⟨hmain, ?_⟩
  intro b1 b2
  cases b1 <;> cases b2 <;> simp [SpheresSoA.hit, hmain]

theorem kernels_agree_witness :
    hit_sse4_1 (fun x => if x = 1 then 1 else 0) (SpheresSoA.new [⟨⟨0, 0, 0⟩, 1⟩])
        ⟨⟨-2, 0, 0⟩, ⟨1, 0, 0⟩⟩ (1/2) 10 =
      hit_scalar (fun x => if x = 1 then 1 else 0) (SpheresSoA.new [⟨⟨0, 0, 0⟩, 1⟩])
        ⟨⟨-2, 0, 0⟩, ⟨1, 0, 0⟩⟩ (1/2) 10 ∧
    ∀ b1 b2 : Bool,
      SpheresSoA.hit b1 (fun x => if x = 1 then 1 else 0)
          (SpheresSoA.new [⟨⟨0, 0, 0⟩, 1⟩]) ⟨⟨-2, 0, 0⟩, ⟨1, 0, 0⟩⟩ (1/2) 10 =
        SpheresSoA.hit b2 (fun x => if x = 1 then 1 else 0)
          (SpheresSoA.new [⟨⟨0, 0, 0⟩, 1⟩]) ⟨⟨-2, 0, 0⟩, ⟨1, 0, 0⟩⟩ (1/2) 10 :=
  kernels_agree (fun x => if x = 1 then 1 else 0) [⟨⟨0, 0, 0⟩, 1⟩]
    ⟨⟨-2, 0, 0⟩, ⟨1, 0, 0⟩⟩ (1/2) 10 (by decide) (by decide)

/-- Claim C1 counterexample: at `t_min = 1` the sphere's nearer root equals
`t_min` exactly.  The scalar kernel keeps the nearer root (its `t < t_min`
retry test is false), which then fails the strict `t > t_min` acceptance,
so it reports no hit; the vector kernel's select `t0 > t_min` is false, so
it takes the farther root `t = 3` and reports a hit.  The two kernels
disagree on the hit/no-hit verdict; every value involved is exactly
representable in f32. -/
theorem kernels_disagree_at_t_min_boundary :
    hit_scalar (fun x => if x = 1 then 1 else 0) (SpheresSoA.new [⟨⟨0, 0, 0⟩, 1⟩])
      ⟨⟨-2, 0, 0⟩, ⟨1, 0, 0⟩⟩ 1 10 = none ∧
    hit_sse4_1 (fun x => if x = 1 then 1 else 0) (SpheresSoA.new [⟨⟨0, 0, 0⟩, 1⟩])
      ⟨⟨-2, 0, 0⟩, ⟨1, 0, 0⟩⟩ 1 10 = some (⟨⟨1, 0, 0⟩, ⟨1, 0, 0⟩⟩, 0) := by
  refine ⟨by decide, by decide⟩

end PathTrace
